import Mathlib

/-!
Verification of the Go package `sieve` (prime sieve of Eratosthenes with
bit-packed storage, file `sieve.go`).

The Go code is shallowly embedded: each Go function or loop becomes a Lean
function.  Go loops are embedded as structurally recursive functions on an
explicit fuel argument; every call site passes a fuel value that is provably
large enough (the correctness lemmas carry the corresponding bound), so the
embedded functions agree with the Go loops on every reachable input and all
definitions compute by kernel reduction.

Go machine integers: the sieve table has element type `uint8`; all word
values stay below `2^8` (the shift amounts are masked with `&&& 7`), and the
two narrowing casts in the source (`byte(...)` in `bit`, `word(...)` in
`setBit`) are embedded as explicit `% 256`.  Go `int` values are embedded as
`Nat` wherever the source keeps them nonnegative, and as `Int` where a
negative value is reachable (the argument of `Factor`, `FactorUnique`,
`DivisorCount`, `SquareFree`, and the allocation-length computation of
`New`, which Go evaluates with truncated division).
-/

namespace sieve

/-- Go: `const wordBitsLog2 = 3` (the build in the repository uses `type word uint8`). -/
def wordBitsLog2 : Nat := 3

/-- Go: `const wordBits = 1 << wordBitsLog2`. -/
def wordBits : Nat := 1 <<< wordBitsLog2

/-- Go: `const wordMask = wordBits - 1`. -/
def wordMask : Nat := wordBits - 1

/-- Go: `type Sieve struct { size int; count int; table []word }`.
`size` is embedded as `Nat` (all claims constrain `size ≥ 0`; the
allocation-length behaviour for negative sizes is modelled separately by
`allocLen`).  Table words are `Nat` values kept below `2^8`. -/
structure Sieve where
  size : Nat
  count : Nat
  table : List Nat
deriving DecidableEq

/-- Go: `func (sieve *Sieve) bit(index int) (bit byte)`:
`byte(sieve.table[index>>(1+wordBitsLog2)]>>byte((index>>1)&wordMask)) & 0x1`.
The `byte(...)` narrowing cast is the `% 256`. -/
def Sieve.bit (s : Sieve) (index : Nat) : Nat :=
  (s.table.getD (index >>> (1 + wordBitsLog2)) 0 >>> ((index >>> 1) &&& wordMask)) % 256 &&& 0x1

/-- Go: `func (sieve *Sieve) setBit(index int)`:
`sieve.table[index>>(1+wordBitsLog2)] |= word(1 << ((uint(index) >> 1) & wordMask))`.
The `word(...)` narrowing cast is the `% 256`. -/
def Sieve.setBit (s : Sieve) (index : Nat) : Sieve :=
  { s with
      table := s.table.set (index >>> (1 + wordBitsLog2))
          (s.table.getD (index >>> (1 + wordBitsLog2)) 0 |||
            (1 <<< ((index >>> 1) &&& wordMask)) % 256) }

/-- Inner loop of Go `New`: `for j := 3 * i; j <= sieve.size; j += i + i { sieve.setBit(j) }`.
`fuel` bounds the number of iterations; callers pass `sieve.size + 1`, which
is enough because `j` grows by at least 2 per iteration. -/
def strike (fuel : Nat) (i : Nat) (s : Sieve) (j : Nat) : Sieve :=
  match fuel with
  | 0 => s
  | fuel + 1 => if j ≤ s.size then strike fuel i (s.setBit j) (j + (i + i)) else s

/-- Outer loop of Go `New`:
`for i := 3; i*i <= sieve.size; i += 2 { if sieve.bit(i) == 0 { <strike> } }`. -/
def sieveLoop (fuel : Nat) (s : Sieve) (i : Nat) : Sieve :=
  match fuel with
  | 0 => s
  | fuel + 1 =>
    if i * i ≤ s.size then
      sieveLoop fuel (if s.bit i = 0 then strike (s.size + 1) i s (3 * i) else s) (i + 2)
    else s

/-- Go: `func New(size int) *Sieve` for `size ≥ 0`.  `new(Sieve)` zero-initialises
`count`; the table gets `1+(size+wordBits-1)/wordBits` words, all zero. -/
def New (size : Nat) : Sieve :=
  sieveLoop (size + 1)
    { size := size
      count := 0
      table := List.replicate (1 + (size + wordBits - 1) / wordBits) 0 } 3

/-- The length Go computes for the allocation `make([]word, 1+(size+wordBits-1)/wordBits)`,
at the `int` level: Go `/` on `int` truncates toward zero, which is `Int.tdiv`.
`make` panics when this is negative. -/
def allocLen (size : Int) : Int :=
  1 + Int.tdiv (size + (wordBits : Int) - 1) (wordBits : Int)

/-- Loop of Go `Count`: `for i := 3; i <= sieve.size; i += 2 { if sieve.bit(i) == 0 { sieve.count++ } }`,
with `c` the running count. -/
def countLoop (fuel : Nat) (s : Sieve) (i : Nat) (c : Nat) : Nat :=
  match fuel with
  | 0 => c
  | fuel + 1 =>
    if i ≤ s.size then countLoop fuel s (i + 2) (if s.bit i = 0 then c + 1 else c) else c

/-- Go: `func (sieve *Sieve) Count() int`.  The method lazily memoises into
`sieve.count`; the embedding returns the value together with the updated
structure. -/
def Count (s : Sieve) : Nat × Sieve :=
  if s.count = 0 then
    let c := countLoop (s.size + 1) s 3 (if 2 ≤ s.size then 1 else 0)
    (c, { s with count := c })
  else (s.count, s)

/-- The `root` loop of Go `Prime`: `root := 1; for (root+1)*(root+1) <= n { root++ }`. -/
def rootLoop (fuel : Nat) (n : Nat) (root : Nat) : Nat :=
  match fuel with
  | 0 => root
  | fuel + 1 => if (root + 1) * (root + 1) ≤ n then rootLoop fuel n (root + 1) else root

/-- The trial-division loop of Go `Prime`:
`for d := 3; d <= root; d += 2 { if sieve.bit(d) == 0 && n%d == 0 { return false } }; return true`. -/
def primeTrial (fuel : Nat) (s : Sieve) (n : Nat) (root : Nat) (d : Nat) : Bool :=
  match fuel with
  | 0 => true
  | fuel + 1 =>
    if d ≤ root then
      if s.bit d = 0 ∧ n % d = 0 then false else primeTrial fuel s n root (d + 2)
    else true

/-- Go: `func (sieve *Sieve) Prime(n int) bool`.  The `switch` cases appear in
source order.  The argument is embedded as `Nat`: every negative `int` falls
into the first case `n < 2` exactly as `0` and `1` do. -/
def Prime (s : Sieve) (n : Nat) : Bool :=
  if n < 2 then false
  else if n = 2 then true
  else if n &&& 1 = 0 then false
  else if n ≤ s.size then
    decide (n = 2) ||
      (decide (2 < n) && decide (n ≤ s.size) && decide (n &&& 1 = 1) && decide (s.bit n = 0))
  else if n ≤ s.size * s.size then
    let root := rootLoop n n 1
    if root * root = n then false
    else primeTrial (root + 1) s n root 3
  else false

/-- The `d`-th inner loop of Go `Factor`:
`for n > 1 && n%d == 0 { result = append(result, d); n /= d }`.
Returns the appended factors and the remaining cofactor.  Callers pass
`fuel = n`, enough since `n` strictly decreases. -/
def divOut (fuel : Nat) (n : Nat) (d : Nat) : List Nat × Nat :=
  match fuel with
  | 0 => ([], n)
  | fuel + 1 =>
    if 1 < n ∧ n % d = 0 then
      let r := divOut fuel (n / d) d
      (d :: r.1, r.2)
    else ([], n)

/-- The factor-of-2 loop of Go `Factor`:
`for n > 1 && n%2 == 0 { result = append(result, 2); n >>= 1 }`. -/
def factorTwos (fuel : Nat) (n : Nat) : List Nat × Nat :=
  match fuel with
  | 0 => ([], n)
  | fuel + 1 =>
    if 1 < n ∧ n % 2 = 0 then
      let r := factorTwos fuel (n >>> 1)
      (2 :: r.1, r.2)
    else ([], n)

/-- The odd-divisor loop of Go `Factor`:
`for d := 3; d < sieve.size && d*d <= n; d += 2 { if sieve.Prime(d) { <divOut> } }`. -/
def factorOdd (fuel : Nat) (s : Sieve) (n : Nat) (d : Nat) : List Nat × Nat :=
  match fuel with
  | 0 => ([], n)
  | fuel + 1 =>
    if d < s.size ∧ d * d ≤ n then
      if Prime s d then
        let c := divOut n n d
        let r := factorOdd fuel s c.2 (d + 2)
        (c.1 ++ r.1, r.2)
      else factorOdd fuel s n (d + 2)
    else ([], n)

/-- Go: `func (sieve *Sieve) Factor(n int) []int`.  The argument stays `Int`
for the two leading tests (a negative `n` always takes the `n <= 3` branch);
past them `4 ≤ n`, so the loops run on `n.toNat` and the factors are cast
back at the end. -/
def Factor (s : Sieve) (n : Int) : List Int :=
  if (s.size * s.size : Int) < n then []
  else if n ≤ 3 then [n]
  else
    let t := factorTwos n.toNat n.toNat
    let r := factorOdd (s.size + 1) s t.2 3
    ((t.1 ++ r.1) ++ if 1 < r.2 then [r.2] else []).map Int.ofNat

/-- Go: `type Unique struct { Factor int; Count int }`.  The `Count` field is
embedded as `Nat`: the source only ever stores iteration counts (or the
literal 1) in it. -/
structure Unique where
  Factor : Int
  Count : Nat
deriving DecidableEq

/-- The counting loop shared by Go `FactorUnique` and `DivisorCount` for the
prime 2: `for n > 1 && n%2 == 0 { n >>= 1; count++ }`. -/
def countTwos (fuel : Nat) (n : Nat) : Nat × Nat :=
  match fuel with
  | 0 => (0, n)
  | fuel + 1 =>
    if 1 < n ∧ n % 2 = 0 then
      let r := countTwos fuel (n >>> 1)
      (r.1 + 1, r.2)
    else (0, n)

/-- The counting loop shared by Go `FactorUnique` and `DivisorCount` for an odd
divisor `d`: `for n > 1 && n%d == 0 { n /= d; count++ }`. -/
def countOut (fuel : Nat) (n : Nat) (d : Nat) : Nat × Nat :=
  match fuel with
  | 0 => (0, n)
  | fuel + 1 =>
    if 1 < n ∧ n % d = 0 then
      let r := countOut fuel (n / d) d
      (r.1 + 1, r.2)
    else (0, n)

/-- The odd-divisor loop of Go `FactorUnique`:
`for d := 3; d < sieve.size && d*d <= n; d += 2 { if sieve.Prime(d) { if n > 1 && n%d == 0 { <count>; append Unique{d, count} } } }`. -/
def uniqueOdd (fuel : Nat) (s : Sieve) (n : Nat) (d : Nat) : List Unique × Nat :=
  match fuel with
  | 0 => ([], n)
  | fuel + 1 =>
    if d < s.size ∧ d * d ≤ n then
      if Prime s d then
        if 1 < n ∧ n % d = 0 then
          let c := countOut n n d
          let r := uniqueOdd fuel s c.2 (d + 2)
          (⟨(d : Int), c.1⟩ :: r.1, r.2)
        else uniqueOdd fuel s n (d + 2)
      else uniqueOdd fuel s n (d + 2)
    else ([], n)

/-- Go: `func (sieve *Sieve) FactorUnique(n int) []Unique`; same structure as
`Factor` with `(factor, count)` pairs. -/
def FactorUnique (s : Sieve) (n : Int) : List Unique :=
  if (s.size * s.size : Int) < n then []
  else if n ≤ 3 then [⟨n, 1⟩]
  else
    let m := n.toNat
    let t : List Unique × Nat :=
      if 1 < m ∧ m % 2 = 0 then
        let c := countTwos m m
        ([⟨2, c.1⟩], c.2)
      else ([], m)
    let r := uniqueOdd (s.size + 1) s t.2 3
    (t.1 ++ r.1) ++ if 1 < r.2 then [⟨(r.2 : Int), 1⟩] else []

/-- Expansion of `Unique` pairs: each `{Factor: p, Count: k}` becomes `k`
consecutive copies of `p`.  Spec: "expanding each `(p, k)` pair into `k`
copies of `p` and concatenating in order". -/
def expand : List Unique → List Int
  | [] => []
  | u :: rest => List.replicate u.Count u.Factor ++ expand rest

/-- The odd-divisor loop of Go `DivisorCount`; returns the product of the
`count+1` contributions together with the remaining cofactor. -/
def dcOdd (fuel : Nat) (s : Sieve) (n : Nat) (d : Nat) : Nat × Nat :=
  match fuel with
  | 0 => (1, n)
  | fuel + 1 =>
    if d < s.size ∧ d * d ≤ n then
      if Prime s d then
        if 1 < n ∧ n % d = 0 then
          let c := countOut n n d
          let r := dcOdd fuel s c.2 (d + 2)
          ((c.1 + 1) * r.1, r.2)
        else dcOdd fuel s n (d + 2)
      else dcOdd fuel s n (d + 2)
    else (1, n)

/-- Go: `func (sieve *Sieve) DivisorCount(n int) int`.  For `n ≤ 0` (after the
range test and the `n == 1` test) every loop guard in the source starts with
`n > 1` or `d*d <= n` and fails, so `m` is returned as 1; the embedding takes
that branch directly.  For `2 ≤ n` the loops run on `n.toNat`. -/
def DivisorCount (s : Sieve) (n : Int) : Int :=
  if (s.size * s.size : Int) < n then 0
  else if n = 1 then 1
  else if n < 1 then 1
  else
    let m := n.toNat
    let t : Nat × Nat :=
      if 1 < m ∧ m % 2 = 0 then
        let c := countTwos m m
        (c.1 + 1, c.2)
      else (1, m)
    let r := dcOdd (s.size + 1) s t.2 3
    (t.1 * r.1 * if 1 < r.2 then 2 else 1 : Nat)

/-- The duplicate scan of Go `SquareFree`:
`for i := 0; i < len(f)-1; i++ { if f[i] == f[i+1] { return false } }; return true`,
embedded as recursion over adjacent pairs. -/
def noAdjDup : List Int → Bool
  | x :: y :: rest => if x = y then false else noAdjDup (y :: rest)
  | _ => true

/-- Go: `func (sieve *Sieve) SquareFree(n int) bool`. -/
def SquareFree (s : Sieve) (n : Int) : Bool :=
  if (s.size * s.size : Int) < n then false
  else noAdjDup (Factor s n)

/-- Loop of Go `NthPrime`:
`for value, count := 3, 1; value <= sieve.size; value += 2 { if sieve.Prime(value) { count++; if count == n { return value } } }; return 0`. -/
def nthLoop (fuel : Nat) (s : Sieve) (n : Nat) (value : Nat) (c : Nat) : Nat :=
  match fuel with
  | 0 => 0
  | fuel + 1 =>
    if value ≤ s.size then
      if Prime s value then
        if c + 1 = n then value else nthLoop fuel s n (value + 2) (c + 1)
      else nthLoop fuel s n (value + 2) c
    else 0

/-- Go: `func (sieve *Sieve) NthPrime(n int) int`. -/
def NthPrime (s : Sieve) (n : Nat) : Nat :=
  if n = 1 then 2 else nthLoop (s.size + 1) s n 3 1

/-- The number of words Go allocates for a sieve of a given (nonnegative) size. -/
def tableLen (size : Nat) : Nat := 1 + (size + wordBits - 1) / wordBits

/-- After the outer loop of `New` has handled every odd candidate below `i`,
an odd number `k` is marked exactly when it has an odd prime divisor `p < i`
other than `k` itself (specification-side predicate for the loop invariant). -/
def struck (i k : Nat) : Prop :=
  ∃ p, Nat.Prime p ∧ p % 2 = 1 ∧ p < i ∧ p ∣ k ∧ k ≠ p

/-- Specification: the number of primes `≤ n` (the prime-counting function). -/
def primesUpTo (n : Nat) : Nat := Nat.count Nat.Prime (n + 1)

/-- Specification: the number of odd primes in `[3, size]` (every prime `≥ 3`
is odd, and the definition spells the oddness out). -/
def oddPrimesIn (size : Nat) : Nat :=
  ((Finset.Icc 3 size).filter fun p => p % 2 = 1 ∧ Nat.Prime p).card

/-- Specification: the number of `d` in `[1, n]` with `n % d = 0`. -/
def divisorsUpTo (n : Nat) : Nat :=
  ((Finset.Icc 1 n).filter fun d => n % d = 0).card

/-! ### Bounds-checked variants

Go panics on an out-of-range slice index.  The checked variants below return
`none` exactly where the Go code would panic, and otherwise compute the same
result as the unchecked embedding; proving them equal to `some` of the
unchecked run shows every table access of `New` and `Prime` is in bounds. -/

/-- Bounds-checked `bit`: `none` models a Go index-out-of-range panic. -/
def bitChecked (s : Sieve) (index : Nat) : Option Nat :=
  if index >>> (1 + wordBitsLog2) < s.table.length then some (s.bit index) else none

/-- Bounds-checked `setBit`. -/
def setBitChecked (s : Sieve) (index : Nat) : Option Sieve :=
  if index >>> (1 + wordBitsLog2) < s.table.length then some (s.setBit index) else none

/-- Bounds-checked inner loop of `New`. -/
def strikeChecked (fuel : Nat) (i : Nat) (s : Sieve) (j : Nat) : Option Sieve :=
  match fuel with
  | 0 => some s
  | fuel + 1 =>
    if j ≤ s.size then
      match setBitChecked s j with
      | none => none
      | some t => strikeChecked fuel i t (j + (i + i))
    else some s

/-- Bounds-checked outer loop of `New`. -/
def sieveLoopChecked (fuel : Nat) (s : Sieve) (i : Nat) : Option Sieve :=
  match fuel with
  | 0 => some s
  | fuel + 1 =>
    if i * i ≤ s.size then
      match bitChecked s i with
      | none => none
      | some b =>
        match (if b = 0 then strikeChecked (s.size + 1) i s (3 * i) else some s) with
        | none => none
        | some t => sieveLoopChecked fuel t (i + 2)
    else some s

/-- Bounds-checked `New`. -/
def NewChecked (size : Nat) : Option Sieve :=
  sieveLoopChecked (size + 1)
    { size := size
      count := 0
      table := List.replicate (1 + (size + wordBits - 1) / wordBits) 0 } 3

/-- Bounds-checked trial-division loop of `Prime`. -/
def primeTrialChecked (fuel : Nat) (s : Sieve) (n : Nat) (root : Nat) (d : Nat) :
    Option Bool :=
  match fuel with
  | 0 => some true
  | fuel + 1 =>
    if d ≤ root then
      match bitChecked s d with
      | none => none
      | some b =>
        if b = 0 ∧ n % d = 0 then some false else primeTrialChecked fuel s n root (d + 2)
    else some true

/-- Bounds-checked `Prime`.  In the table branch the Go `&&` chain evaluates
`sieve.bit(n)` only after `n > 2 && n <= sieve.size && n&1 == 1` held, so the
checked variant reads the table only in that case. -/
def PrimeChecked (s : Sieve) (n : Nat) : Option Bool :=
  if n < 2 then some false
  else if n = 2 then some true
  else if n &&& 1 = 0 then some false
  else if n ≤ s.size then
    if 2 < n ∧ n ≤ s.size ∧ n &&& 1 = 1 then
      match bitChecked s n with
      | none => none
      | some b =>
        some (decide (n = 2) ||
          (decide (2 < n) && decide (n ≤ s.size) && decide (n &&& 1 = 1) && decide (b = 0)))
    else some (decide (n = 2))
  else if n ≤ s.size * s.size then
    let root := rootLoop n n 1
    if root * root = n then some false
    else primeTrialChecked (root + 1) s n root 3
  else some false

/-! ### The bit table: reading and writing packed bits -/

lemma divMod_eq_testBit (y s : Nat) : y / 2 ^ s % 2 = if y.testBit s then 1 else 0 := by
  rw [Nat.testBit_to_div_mod]
  rcases Nat.mod_two_eq_zero_or_one (y / 2 ^ s) with h | h <;> simp [h]

lemma bit_eq (s : Sieve) (i : Nat) :
    s.bit i = if (s.table.getD (i / 16) 0).testBit (i / 2 % 8) then 1 else 0 := by
  have h4 : (1 : Nat) + wordBitsLog2 = 4 := rfl
  have hm : wordMask = 2 ^ 3 - 1 := rfl
  rw [Sieve.bit, h4, hm, Nat.shiftRight_eq_div_pow i, Nat.shiftRight_eq_div_pow i,
    Nat.and_pow_two_sub_one_eq_mod, Nat.shiftRight_eq_div_pow, Nat.and_one_is_mod,
    Nat.mod_mod_of_dvd _ (by norm_num : (2 : Nat) ∣ 256), divMod_eq_testBit]

lemma setBit_eq (s : Sieve) (j : Nat) :
    s.setBit j =
      { s with table := s.table.set (j / 16) (s.table.getD (j / 16) 0 ||| 2 ^ (j / 2 % 8)) } := by
  have h4 : (1 : Nat) + wordBitsLog2 = 4 := rfl
  have hm : wordMask = 2 ^ 3 - 1 := rfl
  have hlt : (1 <<< (j / 2 % 8)) % 256 = 2 ^ (j / 2 % 8) := by
    rw [Nat.one_shiftLeft]
    exact Nat.mod_eq_of_lt (lt_of_lt_of_le
      (Nat.pow_lt_pow_right one_lt_two (Nat.mod_lt _ (by norm_num))) (by norm_num))
  rw [Sieve.setBit, h4, hm, Nat.shiftRight_eq_div_pow j, Nat.shiftRight_eq_div_pow j,
    Nat.and_pow_two_sub_one_eq_mod]
  norm_num [hlt]

@[simp] lemma setBit_size (s : Sieve) (j : Nat) : (s.setBit j).size = s.size := rfl

@[simp] lemma setBit_count (s : Sieve) (j : Nat) : (s.setBit j).count = s.count := rfl

@[simp] lemma setBit_length (s : Sieve) (j : Nat) :
    (s.setBit j).table.length = s.table.length := by
  rw [setBit_eq]; exact List.length_set ..

lemma bit_lt_two (s : Sieve) (i : Nat) : s.bit i < 2 := by
  rw [bit_eq]; split <;> norm_num

/-- The key read-after-write law for the packed table.  Setting the bit of an
index `j` changes exactly the bits of the indices `i` with `i / 2 = j / 2`
(for odd `i` and `j`: exactly `i = j`), provided the word index is in range;
an out-of-range write (which Go would panic on) leaves the list unchanged. -/
lemma bit_setBit (s : Sieve) (i j : Nat) :
    (s.setBit j).bit i = if i / 2 = j / 2 ∧ j / 16 < s.table.length then 1 else s.bit i := by
  rw [setBit_eq, bit_eq, bit_eq]
  simp only [List.getD_eq_getElem?_getD]
  by_cases hw : i / 16 = j / 16
  · rw [hw]
    by_cases hlen : j / 16 < s.table.length
    · rw [List.getElem?_set_self hlen]
      simp only [Option.getD_some]
      by_cases hb : i / 2 = j / 2
      · simp [hb, hlen, Nat.testBit_lor, Nat.testBit_two_pow]
      · have hbp : i / 2 % 8 ≠ j / 2 % 8 := by
          have h16i : i / 2 / 8 = i / 16 := by omega
          have h16j : j / 2 / 8 = j / 16 := by omega
          omega
        have hpow : ((2 : Nat) ^ (j / 2 % 8)).testBit (i / 2 % 8) = false := by
          rw [Nat.testBit_two_pow]
          exact decide_eq_false (Ne.symm hbp)
        simp only [Nat.testBit_lor, hpow, Bool.or_false]
        simp [hb]
    · rw [List.set_eq_of_length_le (Nat.le_of_not_lt hlen)]
      simp [hlen]
  · have hne : i / 2 ≠ j / 2 := by
      have h16i : i / 2 / 8 = i / 16 := by omega
      have h16j : j / 2 / 8 = j / 16 := by omega
      omega
    rw [List.getElem?_set_ne (fun h => hw h.symm)]
    simp [hne]

lemma index_lt_tableLen {size j : Nat} (h : j ≤ size) : j / 16 < tableLen size := by
  have hw : tableLen size = 1 + (size + 8 - 1) / 8 := rfl
  omega

@[simp] lemma bit_replicate_zero (size count len i : Nat) :
    Sieve.bit { size := size, count := count, table := List.replicate len 0 } i = 0 := by
  rw [bit_eq]
  rcases Nat.lt_or_ge (i / 16) len with h | h
  · simp [List.getD_eq_getElem?_getD, List.getElem?_replicate, h]
  · simp [List.getD_eq_getElem?_getD, List.getElem?_replicate, Nat.not_lt.2 h]

/-! ### Construction: the Eratosthenes invariant -/

@[simp] lemma strike_size (i : Nat) :
    ∀ (fuel : Nat) (s : Sieve) (j : Nat), (strike fuel i s j).size = s.size := by
  intro fuel
  induction fuel with
  | zero => intro s j; rfl
  | succ fuel ih =>
    intro s j
    rw [strike]
    split
    · rw [ih, setBit_size]
    · rfl

@[simp] lemma strike_count (i : Nat) :
    ∀ (fuel : Nat) (s : Sieve) (j : Nat), (strike fuel i s j).count = s.count := by
  intro fuel
  induction fuel with
  | zero => intro s j; rfl
  | succ fuel ih =>
    intro s j
    rw [strike]
    split
    · rw [ih, setBit_count]
    · rfl

@[simp] lemma strike_length (i : Nat) :
    ∀ (fuel : Nat) (s : Sieve) (j : Nat), (strike fuel i s j).table.length = s.table.length := by
  intro fuel
  induction fuel with
  | zero => intro s j; rfl
  | succ fuel ih =>
    intro s j
    rw [strike]
    split
    · rw [ih, setBit_length]
    · rfl

lemma le_mul_self (i : Nat) : i ≤ i * i := by nlinarith

lemma lt_mul_self {i : Nat} (h : 2 ≤ i) : i < i * i := by nlinarith

@[simp] lemma sieveLoop_size :
    ∀ (fuel : Nat) (s : Sieve) (i : Nat), (sieveLoop fuel s i).size = s.size := by
  intro fuel
  induction fuel with
  | zero => intro s i; rfl
  | succ fuel ih =>
    intro s i
    rw [sieveLoop]
    split
    · rw [ih]
      split <;> simp
    · rfl

@[simp] lemma sieveLoop_count :
    ∀ (fuel : Nat) (s : Sieve) (i : Nat), (sieveLoop fuel s i).count = s.count := by
  intro fuel
  induction fuel with
  | zero => intro s i; rfl
  | succ fuel ih =>
    intro s i
    rw [sieveLoop]
    split
    · rw [ih]
      split <;> simp
    · rfl

@[simp] lemma sieveLoop_length :
    ∀ (fuel : Nat) (s : Sieve) (i : Nat), (sieveLoop fuel s i).table.length = s.table.length := by
  intro fuel
  induction fuel with
  | zero => intro s i; rfl
  | succ fuel ih =>
    intro s i
    rw [sieveLoop]
    split
    · rw [ih]
      split <;> simp
    · rfl

/-- What the inner loop of `New` does to a single (odd) bit: after
`strike fuel i s j`, an odd `k` is set exactly when it was already set or is
one of the struck values `j, j+2i, j+4i, ...` up to `size`. -/
lemma bit_strike {i : Nat} (hi : 1 ≤ i) :
    ∀ (fuel : Nat) (s : Sieve) (j k : Nat),
      s.size + 1 ≤ j + 2 * fuel →
      tableLen s.size ≤ s.table.length →
      j % 2 = 1 → k % 2 = 1 →
      ((strike fuel i s j).bit k = 1 ↔
        s.bit k = 1 ∨ ∃ m, k = j + (i + i) * m ∧ k ≤ s.size) := by
  intro fuel
  induction fuel with
  | zero =>
    intro s j k hfuel hlen hj hk
    constructor
    · exact Or.inl
    · rintro (h | ⟨m, hkeq, hle⟩)
      · exact h
      · have hj' : j ≤ k := hkeq ▸ Nat.le_add_right j ((i + i) * m)
        omega
  | succ fuel ih =>
    intro s j k hfuel hlen hj hk
    rw [strike]
    split
    · next hjs =>
      rw [ih (s.setBit j) (j + (i + i)) k (by simp; omega) (by simpa using hlen) (by omega) hk]
      have hset : (s.setBit j).bit k = if k / 2 = j / 2 ∧ j / 16 < s.table.length
          then 1 else s.bit k := bit_setBit s k j
      have hjlen : j / 16 < s.table.length :=
        lt_of_lt_of_le (index_lt_tableLen hjs) hlen
      constructor
      · rintro (h | ⟨m, hkeq, hle⟩)
        · by_cases hkj : k = j
          · exact Or.inr ⟨0, by simp [hkj], by omega⟩
          · left
            rw [hset, if_neg (by intro hc; exact hkj (by omega))] at h
            exact h
        · exact Or.inr ⟨m + 1, by rw [hkeq, Nat.mul_succ]; ring, by simpa using hle⟩
      · rintro (h | ⟨m, hkeq, hle⟩)
        · left
          rw [hset]
          split
          · rfl
          · exact h
        · rcases m with _ | m
          · left
            rw [hset, if_pos ⟨by
              have h0 : (i + i) * 0 = 0 := Nat.mul_zero _
              omega, hjlen⟩]
          · right
            refine ⟨m, by rw [hkeq, Nat.mul_succ]; ring, by simpa using hle⟩
    · next hjs =>
      constructor
      · exact Or.inl
      · rintro (h | ⟨m, hkeq, hle⟩)
        · exact h
        · have hj' : j ≤ k := hkeq ▸ Nat.le_add_right j ((i + i) * m)
          omega

lemma not_struck_three (k : Nat) : ¬ struck 3 k := by
  rintro ⟨p, pp, podd, plt, -, -⟩
  have := pp.two_le
  interval_cases p
  · omega

lemma struck_of_dvd {i k p : Nat} (pp : Nat.Prime p) (podd : p % 2 = 1) (plt : p < i)
    (pdvd : p ∣ k) (hne : k ≠ p) : struck i k :=
  ⟨p, pp, podd, plt, pdvd, hne⟩

/-- Stepping the outer index past a composite odd `i` does not change the set
of struck numbers. -/
lemma struck_step_not_prime {i k : Nat} (hi : i % 2 = 1) (hnp : ¬ Nat.Prime i) :
    (struck (i + 2) k ↔ struck i k) := by
  constructor
  · rintro ⟨p, pp, podd, plt, pdvd, hne⟩
    refine ⟨p, pp, podd, ?_, pdvd, hne⟩
    rcases Nat.lt_or_ge p i with h | h
    · exact h
    · exfalso
      have : p = i ∨ p = i + 1 := by omega
      rcases this with rfl | rfl
      · exact hnp pp
      · omega
  · rintro ⟨p, pp, podd, plt, pdvd, hne⟩
    exact ⟨p, pp, podd, by omega, pdvd, hne⟩

/-- Stepping the outer index past an odd prime `i` adds exactly the proper
multiples of `i` to the set of struck numbers. -/
lemma struck_step_prime {i k : Nat} (hi : i % 2 = 1) (hp : Nat.Prime i) :
    (struck (i + 2) k ↔ struck i k ∨ (i ∣ k ∧ k ≠ i)) := by
  constructor
  · rintro ⟨p, pp, podd, plt, pdvd, hne⟩
    rcases Nat.lt_or_ge p i with h | h
    · exact Or.inl ⟨p, pp, podd, h, pdvd, hne⟩
    · have : p = i ∨ p = i + 1 := by omega
      rcases this with rfl | rfl
      · exact Or.inr ⟨pdvd, hne⟩
      · omega
  · rintro (⟨p, pp, podd, plt, pdvd, hne⟩ | ⟨hdvd, hne⟩)
    · exact ⟨p, pp, podd, by omega, pdvd, hne⟩
    · exact ⟨i, hp, hi, by omega, hdvd, hne⟩

/-- The struck values of the inner loop for a prime `i` are exactly the proper
odd multiples of `i`: for odd `k`, `k = 3i + 2i·m` for some `m` iff `i ∣ k`
and `k ≠ i`. -/
lemma strike_multiples {i k : Nat} (hi : i % 2 = 1) (_h3 : 3 ≤ i) (hk : k % 2 = 1)
    (hk3 : 3 ≤ k) :
    ((∃ m, k = 3 * i + (i + i) * m) ↔ i ∣ k ∧ k ≠ i) := by
  constructor
  · rintro ⟨m, rfl⟩
    constructor
    · exact ⟨3 + 2 * m, by ring⟩
    · have : i + i ≤ 3 * i + (i + i) * m := by
        have := Nat.le_add_right (3 * i) ((i + i) * m)
        omega
      omega
  · rintro ⟨⟨t, rfl⟩, hne⟩
    have ht2 : t % 2 = 1 := by
      have hmod : (i * t) % 2 = i % 2 * (t % 2) % 2 := Nat.mul_mod i t 2
      rw [hi, Nat.one_mul] at hmod
      omega
    have ht0 : t ≠ 0 := by rintro rfl; simp at hk3
    have ht1 : t ≠ 1 := by rintro rfl; simp at hne
    have ht3 : 3 ≤ t := by omega
    refine ⟨(t - 3) / 2, ?_⟩
    have hq : t = 3 + 2 * ((t - 3) / 2) := by omega
    calc i * t = i * (3 + 2 * ((t - 3) / 2)) := by rw [← hq]
    _ = 3 * i + (i + i) * ((t - 3) / 2) := by ring

/-- An odd number at least 3 is struck by the divisors below `i` iff it is
composite, provided `i` exceeds its square root (which holds both at loop
exit and at the current index for the candidate `i` itself). -/
lemma struck_iff_not_prime {i k : Nat} (hk : k % 2 = 1) (hk3 : 3 ≤ k)
    (hik : k < i * i) : (struck i k ↔ ¬ Nat.Prime k) := by
  constructor
  · rintro ⟨p, pp, podd, plt, pdvd, hne⟩ hk'
    rcases (Nat.Prime.eq_one_or_self_of_dvd hk' p pdvd) with h1 | hs
    · exact Nat.Prime.one_lt pp |>.ne' h1
    · exact hne hs.symm
  · intro hnp
    have hk0 : 0 < k := by omega
    have hk1 : k ≠ 1 := by omega
    have pp : Nat.Prime k.minFac := Nat.minFac_prime hk1
    have pdvd : k.minFac ∣ k := Nat.minFac_dvd k
    have hsq : k.minFac ^ 2 ≤ k := Nat.minFac_sq_le_self hk0 hnp
    have podd : k.minFac % 2 = 1 := by
      rcases pp.eq_two_or_odd with h2 | hodd
      · exfalso
        have : (2 : Nat) ∣ k := h2 ▸ pdvd
        omega
      · exact hodd
    have hlt : k.minFac < i := by
      by_contra hge
      have h1 : i * i ≤ k.minFac * k.minFac :=
        Nat.mul_le_mul (Nat.le_of_not_lt hge) (Nat.le_of_not_lt hge)
      have h2 : k.minFac * k.minFac ≤ k := by
        have := hsq
        rwa [pow_two] at this
      omega
    have hne : k ≠ k.minFac := by
      intro h
      exact hnp (h ▸ pp)
    exact ⟨k.minFac, pp, podd, hlt, pdvd, hne⟩

lemma odd_mul_three {i : Nat} (hi : i % 2 = 1) : (3 * i) % 2 = 1 := by
  have hmod : (3 * i) % 2 = (3 % 2) * (i % 2) % 2 := Nat.mul_mod 3 i 2
  omega

/-- Main loop invariant: if the table currently encodes `struck i` on the odd
range, running the remaining loop yields a table encoding compositeness. -/
lemma sieveLoop_bit :
    ∀ (fuel : Nat) (s : Sieve) (i : Nat),
      s.size + 1 ≤ i + 2 * fuel →
      tableLen s.size ≤ s.table.length →
      i % 2 = 1 → 3 ≤ i →
      (∀ k', k' % 2 = 1 → 3 ≤ k' → k' ≤ s.size → (s.bit k' = 1 ↔ struck i k')) →
      ∀ k, k % 2 = 1 → 3 ≤ k → k ≤ s.size →
      ((sieveLoop fuel s i).bit k = 1 ↔ ¬ Nat.Prime k) := by
  intro fuel
  induction fuel with
  | zero =>
    intro s i hfuel hlen hi hi3 hinv k hk hk3 hks
    have hik : k < i * i := by
      have := le_mul_self i
      omega
    rw [sieveLoop, hinv k hk hk3 hks]
    exact struck_iff_not_prime hk hk3 hik
  | succ fuel ih =>
    intro s i hfuel hlen hi hi3 hinv k hk hk3 hks
    rw [sieveLoop]
    split
    · next hii =>
      have his : i ≤ s.size := le_trans (le_mul_self i) hii
      have hbit_i : (s.bit i = 1 ↔ struck i i) := hinv i hi hi3 his
      have hbi2 : s.bit i < 2 := bit_lt_two s i
      by_cases hbz : s.bit i = 0
      · -- `i` is unmarked, hence prime: strike its odd multiples.
        have hpi : Nat.Prime i := by
          by_contra hnp
          have hstruck : struck i i := (struck_iff_not_prime hi hi3
            (lt_mul_self (by omega))).2 hnp
          have hb1 : s.bit i = 1 := hbit_i.2 hstruck
          omega
        rw [if_pos hbz]
        apply ih (strike (s.size + 1) i s (3 * i)) (i + 2) (by simp; omega)
          (by simpa using hlen) (by omega) (by omega)
        · intro k' hk' hk3' hks'
          rw [bit_strike (by omega) (s.size + 1) s (3 * i) k' (by omega) hlen
            (odd_mul_three hi) hk', hinv k' hk' hk3' (by simpa using hks'),
            struck_step_prime hi hpi]
          simp only [strike_size] at hks'
          constructor
          · rintro (h | ⟨m, hkeq, -⟩)
            · exact Or.inl h
            · exact Or.inr (((strike_multiples hi hi3 hk' hk3').1 ⟨m, hkeq⟩))
          · rintro (h | hmul)
            · exact Or.inl h
            · exact Or.inr (by
                obtain ⟨m, hm⟩ := (strike_multiples hi hi3 hk' hk3').2 hmul
                exact ⟨m, hm, hks'⟩)
        · exact hk
        · exact hk3
        · simpa using hks
      · -- `i` is already marked, hence composite: nothing to strike.
        have hnp : ¬ Nat.Prime i := by
          have hb1 : s.bit i = 1 := by omega
          have : struck i i := hbit_i.1 hb1
          exact (struck_iff_not_prime hi hi3 (lt_mul_self (by omega))).1 this
        rw [if_neg hbz]
        apply ih s (i + 2) (by omega) hlen (by omega) (by omega)
        · intro k' hk' hk3' hks'
          rw [hinv k' hk' hk3' hks', ← struck_step_not_prime hi hnp]
        · exact hk
        · exact hk3
        · exact hks
    · next hii =>
      have hik : k < i * i := by omega
      rw [hinv k hk hk3 hks]
      exact struck_iff_not_prime hk hk3 hik

lemma New_size (size : Nat) : (New size).size = size := by
  rw [New, sieveLoop_size]

lemma New_count (size : Nat) : (New size).count = 0 := by
  rw [New, sieveLoop_count]

lemma New_length (size : Nat) : (New size).table.length = tableLen size := by
  rw [New, sieveLoop_length, tableLen]
  simp

/-- The constructed sieve satisfies the Eratosthenes invariant: an odd `k` in
`[3, size]` has its bit set iff it is composite. -/
lemma bit_New {size k : Nat} (hk : k % 2 = 1) (hk3 : 3 ≤ k) (hks : k ≤ size) :
    ((New size).bit k = 1 ↔ ¬ Nat.Prime k) := by
  rw [New]
  apply sieveLoop_bit (size + 1) _ 3 (by simp; omega) (by simp [tableLen]) (by omega)
    (by omega) _ k hk hk3 (by simpa)
  intro k' hk' hk3' hks'
  simp only [bit_replicate_zero]
  constructor
  · omega
  · intro h
    exact absurd h (not_struck_three k')

/-- For odd `k` in `[3, size]`, the bit is clear iff `k` is prime. -/
lemma bit_New_zero {size k : Nat} (hk : k % 2 = 1) (hk3 : 3 ≤ k) (hks : k ≤ size) :
    ((New size).bit k = 0 ↔ Nat.Prime k) := by
  have h1 := bit_New hk hk3 hks
  have h2 := bit_lt_two (New size) k
  constructor
  · intro h
    by_contra hnp
    have := h1.2 hnp
    omega
  · intro h
    by_contra hnz
    exact (h1.1 (by omega)) h

/-! ### Primality queries -/

lemma rootLoop_eq_sqrt :
    ∀ (fuel : Nat) (n root : Nat), root ≤ Nat.sqrt n → Nat.sqrt n ≤ root + fuel →
      rootLoop fuel n root = Nat.sqrt n := by
  intro fuel
  induction fuel with
  | zero =>
    intro n root h1 h2
    rw [rootLoop]
    omega
  | succ fuel ih =>
    intro n root h1 h2
    rw [rootLoop]
    split
    · next h =>
      exact ih n (root + 1) (Nat.le_sqrt.2 h) (by omega)
    · next h =>
      by_contra hne
      have h6 : root + 1 ≤ Nat.sqrt n := by omega
      have h7 : (root + 1) * (root + 1) ≤ Nat.sqrt n * Nat.sqrt n := Nat.mul_le_mul h6 h6
      have h8 : Nat.sqrt n * Nat.sqrt n ≤ n := Nat.sqrt_le n
      omega

/-- The `root` loop of `Prime` computes the integer square root. -/
lemma rootLoop_eq (n : Nat) (hn : 1 ≤ n) : rootLoop n n 1 = Nat.sqrt n := by
  apply rootLoop_eq_sqrt
  · have := Nat.sqrt_pos (n := n)
    omega
  · have := Nat.sqrt_le_self n
    omega

/-- The trial-division loop returns `false` exactly when some candidate
divisor of the scanned arithmetic progression has a clear table bit and
divides `n`. -/
lemma primeTrial_eq :
    ∀ (fuel : Nat) (s : Sieve) (n root d : Nat),
      root + 1 ≤ d + 2 * fuel →
      (primeTrial fuel s n root d = false ↔
        ∃ e, d ≤ e ∧ e ≤ root ∧ e % 2 = d % 2 ∧ s.bit e = 0 ∧ n % e = 0) := by
  intro fuel
  induction fuel with
  | zero =>
    intro s n root d hfuel
    rw [primeTrial]
    constructor
    · intro h
      exact absurd h (by simp)
    · rintro ⟨e, h1, h2, -, -, -⟩
      omega
  | succ fuel ih =>
    intro s n root d hfuel
    rw [primeTrial]
    split
    · next hd =>
      split
      · next hhit =>
        refine ⟨fun _ => ⟨d, le_refl d, hd, rfl, hhit.1, hhit.2⟩, fun _ => rfl⟩
      · next hmiss =>
        rw [ih s n root (d + 2) (by omega)]
        constructor
        · rintro ⟨e, h1, h2, h3, h4, h5⟩
          exact ⟨e, by omega, h2, by omega, h4, h5⟩
        · rintro ⟨e, h1, h2, h3, h4, h5⟩
          refine ⟨e, ?_, h2, by omega, h4, h5⟩
          rcases Nat.lt_or_ge e (d + 2) with h | h
          · exfalso
            have : e = d ∨ e = d + 1 := by omega
            rcases this with rfl | rfl
            · exact hmiss ⟨h4, h5⟩
            · omega
          · exact h
    · next hd =>
      constructor
      · intro h
        exact absurd h (by simp)
      · rintro ⟨e, h1, h2, -, -, -⟩
        omega

/-- Correctness of `Prime` on the whole supported range `[0, size²]`:
table lookup below `size`, trial division up to `size²`. -/
lemma Prime_eq {size n : Nat} (hn : n ≤ size * size) :
    (Prime (New size) n = true ↔ Nat.Prime n) := by
  simp only [Prime, New_size]
  by_cases h2 : n < 2
  · rw [if_pos h2]
    simp only [Bool.false_eq_true, false_iff]
    intro hp
    have := hp.two_le
    omega
  · rw [if_neg h2]
    by_cases he2 : n = 2
    · subst he2
      simp [Nat.prime_two]
    · rw [if_neg he2]
      by_cases hev : n &&& 1 = 0
      · rw [if_pos hev]
        simp only [Bool.false_eq_true, false_iff]
        intro hp
        rw [Nat.and_one_is_mod] at hev
        rcases hp.eq_two_or_odd with h | h
        · exact he2 h
        · omega
      · rw [if_neg hev]
        rw [Nat.and_one_is_mod] at hev
        have hodd : n % 2 = 1 := by omega
        have h3 : 3 ≤ n := by omega
        by_cases hsz : n ≤ size
        · rw [if_pos hsz]
          simp only [decide_eq_true_eq, Bool.or_eq_true, Bool.and_eq_true,
            Nat.and_one_is_mod]
          constructor
          · intro h
            rcases h with h | h
            · exact absurd h he2
            · exact (bit_New_zero hodd h3 hsz).1 h.2
          · intro hp
            exact Or.inr ⟨⟨⟨by omega, hsz⟩, hodd⟩, (bit_New_zero hodd h3 hsz).2 hp⟩
        · rw [if_neg hsz, if_pos hn]
          have hn1 : 1 ≤ n := by omega
          rw [rootLoop_eq n hn1]
          split
          · next hsq =>
            simp only [Bool.false_eq_true, false_iff]
            intro hp
            have hm2 : 2 ≤ Nat.sqrt n := by
              by_contra hlt
              have h01 : Nat.sqrt n = 0 ∨ Nat.sqrt n = 1 := by omega
              rcases h01 with h | h <;> rw [h] at hsq <;> omega
            rcases hp.eq_one_or_self_of_dvd (Nat.sqrt n) ⟨Nat.sqrt n, hsq.symm⟩ with h | h
            · omega
            · have := lt_mul_self hm2
              omega
          · next hsq =>
            have hiff := primeTrial_eq (Nat.sqrt n + 1) (New size) n (Nat.sqrt n) 3
              (by omega)
            constructor
            · intro ht
              by_contra hnp
              have hp := Nat.minFac_prime (by omega : n ≠ 1)
              have hdvd := Nat.minFac_dvd n
              have hpsq : n.minFac * n.minFac ≤ n := by
                have := Nat.minFac_sq_le_self (by omega : 0 < n) hnp
                rwa [pow_two] at this
              have hple : n.minFac ≤ Nat.sqrt n := Nat.le_sqrt.2 hpsq
              have hpodd : n.minFac % 2 = 1 := by
                rcases hp.eq_two_or_odd with hf | hf
                · exfalso
                  have : (2 : Nat) ∣ n := hf ▸ hdvd
                  omega
                · exact hf
              have hp3 : 3 ≤ n.minFac := by
                have := hp.two_le
                omega
              have hpsize : n.minFac ≤ size := by
                have hs : Nat.sqrt n ≤ Nat.sqrt (size * size) := Nat.sqrt_le_sqrt hn
                rw [Nat.sqrt_eq] at hs
                omega
              have hfalse : primeTrial (Nat.sqrt n + 1) (New size) n (Nat.sqrt n) 3 = false :=
                hiff.2 ⟨n.minFac, hp3, hple, by omega,
                  (bit_New_zero hpodd hp3 hpsize).2 hp,
                  (Nat.mod_eq_zero_of_dvd hdvd)⟩
              rw [ht] at hfalse
              exact absurd hfalse (by simp)
            · intro hp
              cases hb : primeTrial (Nat.sqrt n + 1) (New size) n (Nat.sqrt n) 3 with
              | false =>
                exfalso
                obtain ⟨e, he3, heroot, -, -, hemod⟩ := hiff.1 hb
                have hedvd : e ∣ n := Nat.dvd_of_mod_eq_zero hemod
                rcases hp.eq_one_or_self_of_dvd e hedvd with h | h
                · omega
                · have : Nat.sqrt n < n := Nat.sqrt_lt_self (by omega)
                  omega
              | true => rfl

/-! ### Counting primes -/

lemma not_prime_even {m : Nat} (h2 : 2 < m) (hev : m % 2 = 0) : ¬ Nat.Prime m := by
  intro hp
  rcases hp.eq_two_or_odd with h | h
  · omega
  · omega

lemma countLoop_setCount :
    ∀ (fuel : Nat) (s : Sieve) (c' i c : Nat),
      countLoop fuel { s with count := c' } i c = countLoop fuel s i c := by
  intro fuel
  induction fuel with
  | zero => intro s c' i c; rfl
  | succ fuel ih =>
    intro s c' i c
    rw [countLoop, countLoop]
    have hsize : ({ s with count := c' } : Sieve).size = s.size := rfl
    have hbit : ({ s with count := c' } : Sieve).bit i = s.bit i := rfl
    rw [hsize, hbit]
    split
    · rw [ih]
    · rfl

lemma count_prime_two : Nat.count Nat.Prime 2 = 0 := by decide

lemma count_prime_three : Nat.count Nat.Prime 3 = 1 := by decide

/-- The scan of `Count` adds the number of primes in `[i, size]` (every prime
visited is odd; even positions never contribute). -/
lemma countLoop_eq :
    ∀ (fuel size i c : Nat),
      size + 1 ≤ i + 2 * fuel → i % 2 = 1 → 3 ≤ i →
      countLoop fuel (New size) i c =
        c + (Nat.count Nat.Prime (size + 1) - Nat.count Nat.Prime i) := by
  intro fuel
  induction fuel with
  | zero =>
    intro size i c hfuel hi hi3
    rw [countLoop]
    have := Nat.count_monotone Nat.Prime (show size + 1 ≤ i by omega)
    omega
  | succ fuel ih =>
    intro size i c hfuel hi hi3
    rw [countLoop, New_size]
    split
    · next his =>
      rw [ih size (i + 2) _ (by omega) (by omega) (by omega)]
      have hstep1 : Nat.count Nat.Prime (i + 1) =
          Nat.count Nat.Prime i + if Nat.Prime i then 1 else 0 := Nat.count_succ Nat.Prime i
      have hstep2 : Nat.count Nat.Prime (i + 2) = Nat.count Nat.Prime (i + 1) := by
        rw [show i + 2 = (i + 1) + 1 from rfl, Nat.count_succ]
        have hne : ¬ Nat.Prime (i + 1) := not_prime_even (by omega) (by omega)
        simp [hne]
      have hmono : Nat.count Nat.Prime (i + 1) ≤ Nat.count Nat.Prime (size + 1) :=
        Nat.count_monotone _ (by omega)
      have hbit := bit_New_zero hi hi3 his
      by_cases hb : (New size).bit i = 0
      · rw [if_pos hb]
        have hp : Nat.Prime i := hbit.1 hb
        rw [if_pos hp] at hstep1
        omega
      · rw [if_neg hb]
        have hp : ¬ Nat.Prime i := fun h => hb (hbit.2 h)
        rw [if_neg hp] at hstep1
        omega
    · next his =>
      have := Nat.count_monotone Nat.Prime (show size + 1 ≤ i by omega)
      omega

/-- Core evaluation of the `Count` scan for a fresh sieve. -/
lemma countLoop_primes (size : Nat) :
    countLoop (size + 1) (New size) 3 (if 2 ≤ size then 1 else 0) = primesUpTo size := by
  rw [countLoop_eq (size + 1) size 3 _ (by omega) (by omega) (by omega),
    count_prime_three, primesUpTo]
  rcases Nat.lt_or_ge size 2 with h | h
  · rw [if_neg (by omega)]
    have h1 : Nat.count Nat.Prime (size + 1) ≤ Nat.count Nat.Prime 2 :=
      Nat.count_monotone _ (by omega)
    have h2 := count_prime_two
    omega
  · rw [if_pos h]
    have h1 : Nat.count Nat.Prime 3 ≤ Nat.count Nat.Prime (size + 1) :=
      Nat.count_monotone _ (by omega)
    rw [count_prime_three] at h1
    omega

lemma Count_New (size : Nat) :
    Count (New size) = (primesUpTo size,
      { size := size, count := primesUpTo size, table := (New size).table }) := by
  have h0 : (New size).count = 0 := New_count size
  rw [Count, if_pos h0, New_size, countLoop_primes]

lemma Count_withCount_fst (size c' : Nat) :
    (Count { size := size, count := c', table := (New size).table }).1 =
      if c' = 0 then primesUpTo size else c' := by
  have hs : ({ size := size, count := c', table := (New size).table } : Sieve) =
      { New size with count := c' } := by
    show Sieve.mk size c' (New size).table =
      Sieve.mk (New size).size c' (New size).table
    rw [New_size]
  by_cases hz : c' = 0
  · rw [hs, Count, if_pos (show c' = 0 from hz), if_pos hz]
    show countLoop ((New size).size + 1) { New size with count := c' } 3
      (if 2 ≤ (New size).size then 1 else 0) = _
    rw [countLoop_setCount, New_size, countLoop_primes]
  · rw [hs, Count, if_neg (show ¬ c' = 0 from hz), if_neg hz]

lemma Count_idem (size : Nat) :
    (Count (Count (New size)).2).1 = (Count (New size)).1 := by
  rw [Count_New]
  show (Count { size := size, count := primesUpTo size, table := (New size).table }).1 =
    primesUpTo size
  rw [Count_withCount_fst]
  split <;> rfl

/-! ### NthPrime -/

lemma oddPrimesIn_eq_zero {size : Nat} (h : size < 3) : oddPrimesIn size = 0 := by
  rw [oddPrimesIn, Finset.Icc_eq_empty_of_lt (by omega)]
  rfl

/-- Primes `≤ size` split into the prime 2 (present iff `2 ≤ size`) and the
odd primes in `[3, size]`. -/
lemma count_split :
    ∀ size : Nat,
      Nat.count Nat.Prime (size + 1) = (if 2 ≤ size then 1 else 0) + oddPrimesIn size := by
  intro size
  induction size with
  | zero => decide
  | succ size ih =>
    rcases Nat.lt_or_ge size 2 with h2 | h2
    · interval_cases size <;> decide
    · have hins : insert (size + 1) (Finset.Icc 3 size) = Finset.Icc 3 (size + 1) :=
        Nat.Icc_insert_succ_right (by omega)
      rw [Nat.count_succ, ih, if_pos h2, if_pos (by omega : 2 ≤ size + 1)]
      simp only [oddPrimesIn]
      rw [← hins, Finset.filter_insert]
      by_cases hp : Nat.Prime (size + 1)
      · have hodd : (size + 1) % 2 = 1 := by
          rcases hp.eq_two_or_odd with h | h
          · omega
          · exact h
        rw [if_pos hp, if_pos ⟨hodd, hp⟩,
          Finset.card_insert_of_not_mem (by
            intro hmem
            have := Finset.mem_of_mem_filter _ hmem
            rw [Finset.mem_Icc] at this
            omega)]
        omega
      · rw [if_neg hp, if_neg (by intro hq; exact hp hq.2)]
        omega

/-- The scan of `NthPrime`: starting at an odd `value` with running count
`c = π(value - 1)` strictly below the target, the loop returns the `n`-th
prime when the sieve holds at least `n` primes and the sentinel 0 otherwise. -/
lemma nthLoop_eq :
    ∀ (fuel size n value c : Nat),
      size + 1 ≤ value + 2 * fuel →
      value % 2 = 1 → 3 ≤ value →
      c = Nat.count Nat.Prime value →
      c < n →
      nthLoop fuel (New size) n value c =
        (if n ≤ Nat.count Nat.Prime (size + 1) then Nat.nth Nat.Prime (n - 1) else 0) := by
  intro fuel
  induction fuel with
  | zero =>
    intro size n value c hfuel hv hv3 hc hcn
    rw [nthLoop, if_neg]
    intro hle
    have := Nat.count_monotone Nat.Prime (show size + 1 ≤ value by omega)
    omega
  | succ fuel ih =>
    intro size n value c hfuel hv hv3 hc hcn
    rw [nthLoop, New_size]
    split
    · next hvs =>
      have hprime_iff := Prime_eq (le_trans hvs (le_mul_self size))
      have hstep1 : Nat.count Nat.Prime (value + 1) =
          Nat.count Nat.Prime value + if Nat.Prime value then 1 else 0 :=
        Nat.count_succ Nat.Prime value
      have hstep2 : Nat.count Nat.Prime (value + 2) = Nat.count Nat.Prime (value + 1) := by
        rw [show value + 2 = (value + 1) + 1 from rfl, Nat.count_succ]
        have hne : ¬ Nat.Prime (value + 1) := not_prime_even (by omega) (by omega)
        simp [hne]
      by_cases hp : Prime (New size) value = true
      · have hpv : Nat.Prime value := hprime_iff.1 hp
        rw [if_pos hp]
        by_cases hcn1 : c + 1 = n
        · rw [if_pos hcn1]
          have hcount1 : Nat.count Nat.Prime (value + 1) = n := by
            rw [hstep1, if_pos hpv]
            omega
          have hle : n ≤ Nat.count Nat.Prime (size + 1) := by
            have := Nat.count_monotone Nat.Prime (show value + 1 ≤ size + 1 by omega)
            omega
          rw [if_pos hle, show n - 1 = Nat.count Nat.Prime value by omega,
            Nat.nth_count hpv]
        · rw [if_neg hcn1]
          exact ih size n (value + 2) (c + 1) (by omega) (by omega) (by omega)
            (by rw [hstep2, hstep1, if_pos hpv]; omega) (by omega)
      · have hnv : ¬ Nat.Prime value := fun h => hp (hprime_iff.2 h)
        rw [if_neg hp]
        exact ih size n (value + 2) c (by omega) (by omega) (by omega)
          (by rw [hstep2, hstep1, if_neg hnv]; omega) (by omega)
    · next hvs =>
      have := Nat.count_monotone Nat.Prime (show size + 1 ≤ value by omega)
      rw [if_neg (by omega)]

/-- `NthPrime n` for `n ≥ 2` finds the `n`-th prime when the range suffices. -/
lemma NthPrime_found (size n : Nat) (h2 : 2 ≤ n) (hle : n - 1 ≤ oddPrimesIn size) :
    NthPrime (New size) n = Nat.nth Nat.Prime (n - 1) := by
  rw [NthPrime, if_neg (by omega), New_size,
    nthLoop_eq (size + 1) size n 3 1 (by omega) (by omega) (by omega)
      count_prime_three.symm (by omega)]
  have hcount : n ≤ Nat.count Nat.Prime (size + 1) := by
    have hs := count_split size
    rcases Nat.lt_or_ge size 2 with h | h
    · have h0 : oddPrimesIn size = 0 := oddPrimesIn_eq_zero (by omega)
      omega
    · rw [if_pos h] at hs
      omega
  rw [if_pos hcount]

/-- `NthPrime n` for `n ≥ 2` returns the sentinel 0 when the range is too small. -/
lemma NthPrime_notfound (size n : Nat) (h2 : 2 ≤ n) (hgt : oddPrimesIn size < n - 1) :
    NthPrime (New size) n = 0 := by
  rw [NthPrime, if_neg (by omega), New_size,
    nthLoop_eq (size + 1) size n 3 1 (by omega) (by omega) (by omega)
      count_prime_three.symm (by omega)]
  have hs := count_split size
  rw [if_neg (by split at hs <;> omega)]

/-! ### Factorization: the division loops -/

lemma odd_of_dvd {m n : Nat} (h : m ∣ n) (hn : n % 2 = 1) : m % 2 = 1 := by
  by_contra hme
  have hm0 : m % 2 = 0 := by omega
  obtain ⟨t, rfl⟩ := h
  obtain ⟨u, rfl⟩ := Nat.even_iff.2 hm0
  have heq : (u + u) * t = 2 * (u * t) := by ring
  omega

lemma sorted_replicate (k d : Nat) : List.Sorted (· ≤ ·) (List.replicate k d) := by
  induction k with
  | zero => exact List.sorted_nil
  | succ k ih =>
    rw [List.replicate_succ, List.sorted_cons]
    exact ⟨fun b hb => le_of_eq (List.eq_of_mem_replicate hb).symm, ih⟩

lemma divOut_stop {fuel n d : Nat} (h : ¬ (1 < n ∧ n % d = 0)) :
    divOut fuel n d = ([], n) := by
  cases fuel with
  | zero => rfl
  | succ fuel => rw [divOut, if_neg h]

/-- The inner division loop of `Factor` peels off the exact power of `d`
dividing `n`, appending one copy of `d` per division. -/
lemma divOut_eq :
    ∀ (fuel n d : Nat), 2 ≤ d → n ≤ fuel → 1 ≤ n →
      ∃ k, (divOut fuel n d).1 = List.replicate k d ∧
        n = d ^ k * (divOut fuel n d).2 ∧
        ((divOut fuel n d).2 = 1 ∨ ¬ d ∣ (divOut fuel n d).2) ∧
        1 ≤ (divOut fuel n d).2 := by
  intro fuel
  induction fuel with
  | zero =>
    intro n d hd hfuel hn
    omega
  | succ fuel ih =>
    intro n d hd hfuel hn
    rw [divOut]
    split
    · next hguard =>
      have hdvd : d ∣ n := Nat.dvd_of_mod_eq_zero hguard.2
      have hq1 : 1 ≤ n / d := Nat.one_le_div_iff (by omega) |>.2 (Nat.le_of_dvd (by omega) hdvd)
      have hqf : n / d ≤ fuel := by
        have : n / d < n := Nat.div_lt_self (by omega) (by omega)
        omega
      obtain ⟨k, hl, hprod, hstop, hr⟩ := ih (n / d) d hd hqf hq1
      refine ⟨k + 1, ?_, ?_, hstop, hr⟩
      · simp only [hl, List.replicate_succ]
      · show n = d ^ (k + 1) * (divOut fuel (n / d) d).2
        calc n = d * (n / d) := (Nat.mul_div_cancel' hdvd).symm
          _ = d * (d ^ k * (divOut fuel (n / d) d).2) := by rw [← hprod]
          _ = d ^ (k + 1) * (divOut fuel (n / d) d).2 := by ring
    · next hguard =>
      refine ⟨0, rfl, by simp, ?_, by omega⟩
      rcases Nat.lt_or_ge 1 n with h1 | h1
      · right
        intro hdvd
        exact hguard ⟨h1, Nat.mod_eq_zero_of_dvd hdvd⟩
      · left
        omega

lemma factorTwos_stop {fuel n : Nat} (h : ¬ (1 < n ∧ n % 2 = 0)) :
    factorTwos fuel n = ([], n) := by
  cases fuel with
  | zero => rfl
  | succ fuel => rw [factorTwos, if_neg h]

lemma shiftRight_one_eq (n : Nat) : n >>> 1 = n / 2 := by
  rw [Nat.shiftRight_eq_div_pow]

/-- The factor-of-2 loop of `Factor` peels off the exact power of 2. -/
lemma factorTwos_eq :
    ∀ (fuel n : Nat), n ≤ fuel → 1 ≤ n →
      ∃ a, (factorTwos fuel n).1 = List.replicate a 2 ∧
        n = 2 ^ a * (factorTwos fuel n).2 ∧
        (factorTwos fuel n).2 % 2 = 1 ∧
        1 ≤ (factorTwos fuel n).2 := by
  intro fuel
  induction fuel with
  | zero =>
    intro n hfuel hn
    omega
  | succ fuel ih =>
    intro n hfuel hn
    rw [factorTwos]
    split
    · next hguard =>
      rw [shiftRight_one_eq]
      have hq1 : 1 ≤ n / 2 := by omega
      have hqf : n / 2 ≤ fuel := by omega
      obtain ⟨a, hl, hprod, hodd, hr⟩ := ih (n / 2) hqf hq1
      refine ⟨a + 1, ?_, ?_, hodd, hr⟩
      · simp only [hl, List.replicate_succ]
      · show n = 2 ^ (a + 1) * (factorTwos fuel (n / 2)).2
        calc n = 2 * (n / 2) := by omega
          _ = 2 * (2 ^ a * (factorTwos fuel (n / 2)).2) := by rw [← hprod]
          _ = 2 ^ (a + 1) * (factorTwos fuel (n / 2)).2 := by ring
    · next hguard =>
      exact ⟨0, rfl, by simp, by omega, by omega⟩

lemma countOut_stop {fuel n d : Nat} (h : ¬ (1 < n ∧ n % d = 0)) :
    countOut fuel n d = (0, n) := by
  cases fuel with
  | zero => rfl
  | succ fuel => rw [countOut, if_neg h]

/-- `countOut` and `divOut` agree: the count is the length of the factor list
and the remainders coincide (the loops are syntactically identical up to the
accumulator). -/
lemma countOut_divOut :
    ∀ (fuel n d : Nat),
      (divOut fuel n d).1 = List.replicate (countOut fuel n d).1 d ∧
      (countOut fuel n d).2 = (divOut fuel n d).2 := by
  intro fuel
  induction fuel with
  | zero => intro n d; exact ⟨rfl, rfl⟩
  | succ fuel ih =>
    intro n d
    rw [divOut, countOut]
    split
    · obtain ⟨h1, h2⟩ := ih (n / d) d
      exact ⟨by simp only [h1, List.replicate_succ], h2⟩
    · exact ⟨rfl, rfl⟩

lemma countTwos_stop {fuel n : Nat} (h : ¬ (1 < n ∧ n % 2 = 0)) :
    countTwos fuel n = (0, n) := by
  cases fuel with
  | zero => rfl
  | succ fuel => rw [countTwos, if_neg h]

/-- `countTwos` and `factorTwos` agree likewise. -/
lemma countTwos_factorTwos :
    ∀ (fuel n : Nat),
      (factorTwos fuel n).1 = List.replicate (countTwos fuel n).1 2 ∧
      (countTwos fuel n).2 = (factorTwos fuel n).2 := by
  intro fuel
  induction fuel with
  | zero => intro n; exact ⟨rfl, rfl⟩
  | succ fuel ih =>
    intro n
    rw [factorTwos, countTwos]
    split
    · obtain ⟨h1, h2⟩ := ih (n >>> 1)
      exact ⟨by simp only [h1, List.replicate_succ], h2⟩
    · exact ⟨rfl, rfl⟩

/-- The exact power of 2, in counting form (for `FactorUnique` and
`DivisorCount`). -/
lemma countTwos_eq (fuel n : Nat) (hfuel : n ≤ fuel) (hn : 1 ≤ n) :
    n = 2 ^ (countTwos fuel n).1 * (countTwos fuel n).2 ∧
      (countTwos fuel n).2 % 2 = 1 ∧ 1 ≤ (countTwos fuel n).2 := by
  obtain ⟨a, hl, hprod, hodd, hr⟩ := factorTwos_eq fuel n hfuel hn
  obtain ⟨h1, h2⟩ := countTwos_factorTwos fuel n
  have hlen : (countTwos fuel n).1 = a := by
    have := h1.symm.trans hl
    have hlen' := congrArg List.length this
    simpa using hlen'
  rw [hlen, h2]
  exact ⟨hprod, hodd, hr⟩

/-- The exact power of an odd `d`, in counting form. -/
lemma countOut_eq (fuel n d : Nat) (hd : 2 ≤ d) (hfuel : n ≤ fuel) (hn : 1 ≤ n) :
    n = d ^ (countOut fuel n d).1 * (countOut fuel n d).2 ∧
      ((countOut fuel n d).2 = 1 ∨ ¬ d ∣ (countOut fuel n d).2) ∧
      1 ≤ (countOut fuel n d).2 := by
  obtain ⟨k, hl, hprod, hstop, hr⟩ := divOut_eq fuel n d hd hfuel hn
  obtain ⟨h1, h2⟩ := countOut_divOut fuel n d
  have hlen : (countOut fuel n d).1 = k := by
    have := h1.symm.trans hl
    have hlen' := congrArg List.length this
    simpa using hlen'
  rw [hlen, h2]
  exact ⟨hprod, hstop, hr⟩

/-! ### Factorization: the odd-divisor loop -/

/-- Invariant of the odd-divisor loop of `Factor`: starting at an odd `d ≥ 3`
with a current value `n` (odd, positive, no prime factor below `d`), the loop
returns a sorted list of primes of `[d, size)` whose product times the
cofactor is `n`; every prime factor of the cofactor is `≥ d` and dominates
the list, and a composite cofactor can only survive the `d < size` bound,
forcing `size ≤ minFac` and `size² ≤ cofactor`. -/
lemma factorOdd_eq :
    ∀ (fuel size n d : Nat),
      size ≤ d + 2 * fuel →
      n % 2 = 1 → 1 ≤ n → d % 2 = 1 → 3 ≤ d →
      (∀ p, Nat.Prime p → p ∣ n → d ≤ p) →
      ∃ l r, factorOdd fuel (New size) n d = (l, r) ∧
        n = l.prod * r ∧
        List.Sorted (· ≤ ·) l ∧
        (∀ x ∈ l, Nat.Prime x ∧ d ≤ x ∧ x < size) ∧
        r % 2 = 1 ∧ 1 ≤ r ∧
        (∀ p, Nat.Prime p → p ∣ r → (d ≤ p ∧ ∀ x ∈ l, x ≤ p)) ∧
        (1 < r → (Nat.Prime r ∨ (size ≤ r.minFac ∧ size * size ≤ r))) := by
  intro fuel
  induction fuel with
  | zero =>
    intro size n d hfuel hodd hn hd hd3 hmin
    refine ⟨[], n, rfl, by simp, List.sorted_nil, by simp, hodd, hn,
      fun p pp pd => ⟨hmin p pp pd, by simp⟩, ?_⟩
    intro h1
    by_cases hp : Nat.Prime n
    · exact Or.inl hp
    · right
      have hpf := Nat.minFac_prime (show n ≠ 1 by omega)
      have hdvd := Nat.minFac_dvd n
      have hge : d ≤ n.minFac := hmin _ hpf hdvd
      have hsq : n.minFac * n.minFac ≤ n := by
        have := Nat.minFac_sq_le_self (by omega) hp
        rwa [pow_two] at this
      refine ⟨by omega, ?_⟩
      calc size * size ≤ n.minFac * n.minFac := Nat.mul_le_mul (by omega) (by omega)
        _ ≤ n := hsq
  | succ fuel ih =>
    intro size n d hfuel hodd hn hd hd3 hmin
    by_cases hguard : d < size ∧ d * d ≤ n
    · by_cases hp : Prime (New size) d = true
      · -- `d` is prime: divide it out, then continue at `d + 2`.
        have hdp : Nat.Prime d :=
          (Prime_eq (le_trans (Nat.le_of_lt hguard.1) (le_mul_self size))).1 hp
        obtain ⟨k, hl1, hprod1, hstop1, hr1⟩ := divOut_eq n n d (by omega) (le_refl n) hn
        set n1 := (divOut n n d).2 with hn1def
        have hn1dvd : n1 ∣ n := ⟨d ^ k, by rw [hprod1]; ring⟩
        have hn1odd : n1 % 2 = 1 := odd_of_dvd hn1dvd hodd
        have hmin1 : ∀ p, Nat.Prime p → p ∣ n1 → d + 2 ≤ p := by
          intro p pp pd
          have hpn : p ∣ n := pd.trans hn1dvd
          have h1 := hmin p pp hpn
          have hpodd : p % 2 = 1 := odd_of_dvd hpn hodd
          have hpd : p ≠ d := by
            rintro rfl
            rcases hstop1 with h | h
            · rw [h] at pd
              exact pp.one_lt.ne' (Nat.dvd_one.1 pd)
            · exact h pd
          omega
        obtain ⟨l', r, heq, hprodr, hsort, hel, hrodd, hr', hrmin, hfin⟩ :=
          ih size n1 (d + 2) (by omega) hn1odd hr1 (by omega) (by omega) hmin1
        have hunfold : factorOdd (fuel + 1) (New size) n d =
            (List.replicate k d ++ l', r) := by
          rw [factorOdd, New_size, if_pos hguard, if_pos hp]
          show ((divOut n n d).1 ++ (factorOdd fuel (New size) n1 (d + 2)).1,
            (factorOdd fuel (New size) n1 (d + 2)).2) = _
          rw [hl1, heq]
        refine ⟨_, _, hunfold, ?_, ?_, ?_, hrodd, hr', ?_, hfin⟩
        · rw [List.prod_append, List.prod_replicate]
          calc n = d ^ k * n1 := hprod1
            _ = d ^ k * (l'.prod * r) := by rw [hprodr]
            _ = d ^ k * l'.prod * r := by ring
        · refine List.pairwise_append.2 ⟨sorted_replicate k d, hsort, ?_⟩
          intro x hx y hy
          have hxd := List.eq_of_mem_replicate hx
          have := (hel y hy).2.1
          omega
        · intro x hx
          rcases List.mem_append.1 hx with hx | hx
          · have hxd := List.eq_of_mem_replicate hx
            rw [hxd]
            exact ⟨hdp, le_refl d, hguard.1⟩
          · obtain ⟨h1, h2, h3⟩ := hel x hx
            exact ⟨h1, by omega, h3⟩
        · intro p pp pd
          obtain ⟨h1, h2⟩ := hrmin p pp pd
          refine ⟨by omega, ?_⟩
          intro x hx
          rcases List.mem_append.1 hx with hx | hx
          · have := List.eq_of_mem_replicate hx
            omega
          · exact h2 x hx
      · -- `d` fails the sieve test, hence is composite: skip it.
        have hdnp : ¬ Nat.Prime d := fun h =>
          hp ((Prime_eq (le_trans (Nat.le_of_lt hguard.1) (le_mul_self size))).2 h)
        have hmin1 : ∀ p, Nat.Prime p → p ∣ n → d + 2 ≤ p := by
          intro p pp pd
          have h1 := hmin p pp pd
          have hpodd : p % 2 = 1 := odd_of_dvd pd hodd
          have hpd : p ≠ d := by
            rintro rfl
            exact hdnp pp
          omega
        obtain ⟨l, r, heq, hprodr, hsort, hel, hrodd, hr', hrmin, hfin⟩ :=
          ih size n (d + 2) (by omega) hodd hn (by omega) (by omega) hmin1
        have hunfold : factorOdd (fuel + 1) (New size) n d = (l, r) := by
          rw [factorOdd, New_size, if_pos hguard, if_neg hp, heq]
        refine ⟨_, _, hunfold, hprodr, hsort, ?_, hrodd, hr', ?_, hfin⟩
        · intro x hx
          obtain ⟨h1, h2, h3⟩ := hel x hx
          exact ⟨h1, by omega, h3⟩
        · intro p pp pd
          obtain ⟨h1, h2⟩ := hrmin p pp pd
          exact ⟨by omega, h2⟩
    · -- loop exit: either `size ≤ d` or `n < d²`.
      have hunfold : factorOdd (fuel + 1) (New size) n d = ([], n) := by
        rw [factorOdd, New_size, if_neg hguard]
      refine ⟨[], n, hunfold, by simp, List.sorted_nil, by simp, hodd, hn,
        fun p pp pd => ⟨hmin p pp pd, by simp⟩, ?_⟩
      intro h1
      by_cases hp : Nat.Prime n
      · exact Or.inl hp
      · have hpf := Nat.minFac_prime (show n ≠ 1 by omega)
        have hdvd := Nat.minFac_dvd n
        have hge : d ≤ n.minFac := hmin _ hpf hdvd
        have hsq : n.minFac * n.minFac ≤ n := by
          have := Nat.minFac_sq_le_self (by omega) hp
          rwa [pow_two] at this
        rcases Nat.lt_or_ge d size with hlt | hge2
        · exfalso
          have hnd : ¬ d * d ≤ n := fun h => hguard ⟨hlt, h⟩
          have : d * d ≤ n.minFac * n.minFac := Nat.mul_le_mul hge hge
          omega
        · right
          refine ⟨by omega, ?_⟩
          calc size * size ≤ n.minFac * n.minFac := Nat.mul_le_mul (by omega) (by omega)
            _ ≤ n := hsq

/-- A cofactor `r ∣ n` that survived the loop with `size ≤ minFac r` and
`size² ≤ r` forces the boundary case `n = size²` with `size` prime; under the
exclusion hypothesis the cofactor is therefore prime. -/
lemma survivor_prime {size n r : Nat} (h2 : 2 ≤ n) (hn : n ≤ size * size)
    (hexc : ¬(n = size * size ∧ Nat.Prime size)) (hrdvd : r ∣ n) (hr1 : 1 < r)
    (hfin : Nat.Prime r ∨ (size ≤ r.minFac ∧ size * size ≤ r)) : Nat.Prime r := by
  rcases hfin with h | ⟨hminf, hsz⟩
  · exact h
  · exfalso
    have hrn : r ≤ n := Nat.le_of_dvd (by omega) hrdvd
    have hreq : r = size * size := by omega
    have hneq : n = size * size := by omega
    have hmf := Nat.minFac_prime (show r ≠ 1 by omega)
    have hmfd := Nat.minFac_dvd r
    have hmfsize : r.minFac ∣ size := by
      have hdd : r.minFac ∣ size * size := hreq ▸ hmfd
      exact ((Nat.Prime.dvd_mul hmf).1 hdd).elim id id
    have hszpos : 0 < size := by
      rcases Nat.eq_zero_or_pos size with h0 | h0
      · rw [h0] at hreq
        omega
      · exact h0
    have hle : r.minFac ≤ size := Nat.le_of_dvd hszpos hmfsize
    exact hexc ⟨hneq, (le_antisymm hle hminf) ▸ hmf⟩

/-! ### Factor assembled: equality with the mathematical prime factorization -/

/-- On its documented domain (minus the one boundary case `n = size²` with
`size` an odd prime, where the loop bound `d < size` stops one divisor
short), `Factor` returns exactly the sorted prime factorization. -/
lemma Factor_eq (size n : Nat) (h2 : 2 ≤ n) (hn : n ≤ size * size)
    (hexc : ¬(n = size * size ∧ Nat.Prime size)) :
    Factor (New size) (n : Int) = (Nat.primeFactorsList n).map Int.ofNat := by
  rcases Nat.lt_or_ge 3 n with h4 | h3
  · rw [Factor, New_size, if_neg (by exact_mod_cast Nat.not_lt.2 hn),
      if_neg (by exact_mod_cast Nat.not_le.2 h4)]
    obtain ⟨a, hl2, hprod2, hodd2, hpos2⟩ := factorTwos_eq n n (le_refl n) (by omega)
    set n1 := (factorTwos n n).2 with hn1def
    have hmin1 : ∀ p, Nat.Prime p → p ∣ n1 → 3 ≤ p := by
      intro p pp pd
      have hpodd : p % 2 = 1 := odd_of_dvd pd hodd2
      have := pp.two_le
      omega
    obtain ⟨l, r, heq, hprodr, hsort, hel, hrodd, hr', hrmin, hfin⟩ :=
      factorOdd_eq (size + 1) size n1 3 (by omega) hodd2 hpos2 (by omega) (by omega) hmin1
    have hrcase : r = 1 ∨ Nat.Prime r := by
      rcases Nat.lt_or_ge 1 r with hr1 | hr1
      · have hrdvdn1 : r ∣ n1 := ⟨l.prod, by rw [hprodr]; ring⟩
        have hrdvd : r ∣ n := hrdvdn1.trans ⟨2 ^ a, by rw [hprod2]; ring⟩
        exact Or.inr (survivor_prime h2 hn hexc hrdvd hr1 (hfin hr1))
      · exact Or.inl (by omega)
    show (((factorTwos n n).1 ++ (factorOdd (size + 1) (New size) n1 3).1) ++
        (if 1 < (factorOdd (size + 1) (New size) n1 3).2 then
          [(factorOdd (size + 1) (New size) n1 3).2] else [])).map Int.ofNat =
      (Nat.primeFactorsList n).map Int.ofNat
    rw [hl2, heq]
    show ((List.replicate a 2 ++ l) ++ (if 1 < r then [r] else [])).map Int.ofNat = _
    refine congrArg (List.map Int.ofNat) ?_
    have hLprod : ((List.replicate a 2 ++ l) ++ (if 1 < r then [r] else [])).prod = n := by
      rw [List.prod_append, List.prod_append, List.prod_replicate]
      have hnval : n = 2 ^ a * (l.prod * r) := by rw [hprod2, hprodr]
      rcases Nat.lt_or_ge 1 r with hgt | hle
      · rw [if_pos hgt, List.prod_singleton, hnval]
        ring
      · rw [if_neg (by omega), List.prod_nil, hnval, show r = 1 by omega]
        ring
    have hLprime : ∀ p ∈ (List.replicate a 2 ++ l) ++ (if 1 < r then [r] else []),
        Nat.Prime p := by
      intro p hp
      rcases List.mem_append.1 hp with hp | hp
      · rcases List.mem_append.1 hp with hp | hp
        · rw [List.eq_of_mem_replicate hp]
          exact Nat.prime_two
        · exact (hel p hp).1
      · rcases Nat.lt_or_ge 1 r with hgt | hle
        · rw [if_pos hgt] at hp
          rw [List.mem_singleton.1 hp]
          rcases hrcase with h1 | h
          · exact absurd hgt (by omega)
          · exact h
        · rw [if_neg (by omega)] at hp
          exact absurd hp (List.not_mem_nil p)
    have hLsorted : List.Sorted (· ≤ ·)
        ((List.replicate a 2 ++ l) ++ (if 1 < r then [r] else [])) := by
      refine List.pairwise_append.2
        ⟨List.pairwise_append.2 ⟨sorted_replicate a 2, hsort, ?_⟩, ?_, ?_⟩
      · intro x hx y hy
        rw [List.eq_of_mem_replicate hx]
        exact le_trans (by norm_num) (hel y hy).2.1
      · split
        · exact List.sorted_singleton r
        · exact List.sorted_nil
      · intro x hx y hy
        rcases Nat.lt_or_ge 1 r with hgt | hle
        · rw [if_pos hgt] at hy
          rw [List.mem_singleton.1 hy]
          have hmf := Nat.minFac_prime (show r ≠ 1 by omega)
          have hmfd := Nat.minFac_dvd r
          obtain ⟨hge3, hdom⟩ := hrmin r.minFac hmf hmfd
          have hminle : r.minFac ≤ r := Nat.minFac_le (by omega)
          rcases List.mem_append.1 hx with hx | hx
          · have := List.eq_of_mem_replicate hx
            omega
          · have := hdom x hx
            omega
        · rw [if_neg (by omega)] at hy
          exact absurd hy (List.not_mem_nil y)
    exact List.eq_of_perm_of_sorted (Nat.primeFactorsList_unique hLprod hLprime)
      hLsorted (Nat.primeFactorsList_sorted n)
  · have hcase : n = 2 ∨ n = 3 := by omega
    have hp : Nat.Prime n := by
      rcases hcase with rfl | rfl
      · exact Nat.prime_two
      · exact Nat.prime_three
    rw [Factor, New_size, if_neg (by exact_mod_cast Nat.not_lt.2 hn),
      if_pos (by exact_mod_cast h3), Nat.primeFactorsList_prime hp]
    rfl

/-! ### FactorUnique expands to Factor -/

lemma expand_append (l1 l2 : List Unique) :
    expand (l1 ++ l2) = expand l1 ++ expand l2 := by
  induction l1 with
  | nil => rfl
  | cons u rest ih =>
    show List.replicate u.Count u.Factor ++ expand (rest ++ l2) =
      (List.replicate u.Count u.Factor ++ expand rest) ++ expand l2
    rw [ih, List.append_assoc]

/-- The odd loops of `FactorUnique` and `Factor` stay in lockstep: same
remainder, and the pair list expands to the factor list. -/
lemma uniqueOdd_factorOdd :
    ∀ (fuel : Nat) (s : Sieve) (n d : Nat),
      expand (uniqueOdd fuel s n d).1 = (factorOdd fuel s n d).1.map Int.ofNat ∧
      (uniqueOdd fuel s n d).2 = (factorOdd fuel s n d).2 := by
  intro fuel
  induction fuel with
  | zero => intro s n d; exact ⟨rfl, rfl⟩
  | succ fuel ih =>
    intro s n d
    rw [uniqueOdd, factorOdd]
    by_cases hc : d < s.size ∧ d * d ≤ n
    · rw [if_pos hc, if_pos hc]
      by_cases hp : Prime s d = true
      · rw [if_pos hp, if_pos hp]
        by_cases hdiv : 1 < n ∧ n % d = 0
        · rw [if_pos hdiv]
          obtain ⟨hrep, hsnd⟩ := countOut_divOut n n d
          obtain ⟨ih1, ih2⟩ := ih s (divOut n n d).2 (d + 2)
          constructor
          · show expand (⟨(d : Int), (countOut n n d).1⟩ ::
                (uniqueOdd fuel s (countOut n n d).2 (d + 2)).1) =
              ((divOut n n d).1 ++ (factorOdd fuel s (divOut n n d).2 (d + 2)).1).map
                Int.ofNat
            rw [hsnd, List.map_append, hrep, List.map_replicate]
            simp only [expand, ih1]
            rfl
          · show (uniqueOdd fuel s (countOut n n d).2 (d + 2)).2 =
              (factorOdd fuel s (divOut n n d).2 (d + 2)).2
            rw [hsnd, ih2]
        · rw [if_neg hdiv]
          have hstop := @divOut_stop n n d hdiv
          obtain ⟨ih1, ih2⟩ := ih s n (d + 2)
          constructor
          · show expand (uniqueOdd fuel s n (d + 2)).1 =
              ((divOut n n d).1 ++
                (factorOdd fuel s (divOut n n d).2 (d + 2)).1).map Int.ofNat
            rw [hstop]
            show expand (uniqueOdd fuel s n (d + 2)).1 =
              ([] ++ (factorOdd fuel s n (d + 2)).1).map Int.ofNat
            rw [List.nil_append, ih1]
          · show (uniqueOdd fuel s n (d + 2)).2 =
              (factorOdd fuel s (divOut n n d).2 (d + 2)).2
            rw [hstop, ih2]
      · rw [if_neg hp, if_neg hp]
        exact ih s n (d + 2)
    · rw [if_neg hc, if_neg hc]
      exact ⟨rfl, rfl⟩

/-- Specification of claim C4 on every sieve and every integer argument:
expanding the `(factor, count)` pairs reproduces `Factor` exactly. -/
lemma FactorUnique_expand (s : Sieve) (n : Int) :
    expand (FactorUnique s n) = Factor s n := by
  simp only [FactorUnique, Factor]
  by_cases hr : (s.size * s.size : Int) < n
  · rw [if_pos hr, if_pos hr]
    rfl
  · rw [if_neg hr, if_neg hr]
    by_cases h3 : n ≤ 3
    · rw [if_pos h3, if_pos h3]
      rfl
    · rw [if_neg h3, if_neg h3]
      by_cases htwo : 1 < n.toNat ∧ n.toNat % 2 = 0
      · rw [if_pos htwo]
        obtain ⟨hrep, hsnd⟩ := countTwos_factorTwos n.toNat n.toNat
        obtain ⟨ih1, ih2⟩ := uniqueOdd_factorOdd (s.size + 1) s
          (countTwos n.toNat n.toNat).2 3
        rw [hsnd] at ih1 ih2 ⊢
        rw [expand_append, expand_append, ih2, List.map_append, List.map_append, hrep,
          List.map_replicate, ih1]
        by_cases htail :
            1 < (factorOdd (s.size + 1) s (factorTwos n.toNat n.toNat).2 3).2
        · rw [if_pos htail, if_pos htail]
          simp [expand]
        · rw [if_neg htail, if_neg htail]
          simp [expand]
      · rw [if_neg htwo]
        have hstop := @factorTwos_stop n.toNat n.toNat htwo
        obtain ⟨ih1, ih2⟩ := uniqueOdd_factorOdd (s.size + 1) s n.toNat 3
        rw [hstop]
        show expand (([] ++ (uniqueOdd (s.size + 1) s n.toNat 3).1) ++
            (if 1 < (uniqueOdd (s.size + 1) s n.toNat 3).2 then
              [⟨((uniqueOdd (s.size + 1) s n.toNat 3).2 : Int), 1⟩] else [])) =
          (([] ++ (factorOdd (s.size + 1) s n.toNat 3).1) ++
            (if 1 < (factorOdd (s.size + 1) s n.toNat 3).2 then
              [(factorOdd (s.size + 1) s n.toNat 3).2] else [])).map Int.ofNat
        rw [expand_append, expand_append, ih2, List.map_append, List.map_append, ih1]
        by_cases htail : 1 < (factorOdd (s.size + 1) s n.toNat 3).2
        · rw [if_pos htail, if_pos htail]
          simp [expand]
        · rw [if_neg htail, if_neg htail]
          simp [expand]

/-! ### DivisorCount -/

lemma card_divisors_prime_pow {p k : Nat} (pp : Nat.Prime p) :
    ((p ^ k).divisors).card = k + 1 := by
  rw [Nat.divisors_prime_pow pp]
  simp

lemma card_divisors_one : ((1 : Nat).divisors).card = 1 := by
  rw [Nat.divisors_one]
  rfl

lemma card_divisors_prime {p : Nat} (pp : Nat.Prime p) : (p.divisors).card = 2 := by
  rw [Nat.Prime.divisors pp, Finset.card_insert_of_not_mem (by
    rw [Finset.mem_singleton]
    exact pp.one_lt.ne), Finset.card_singleton]

/-- Exit clause shared by the loop exits of the factor-family loops. -/
lemma survivor_clause {size n d : Nat} (_hn : 1 ≤ n)
    (hmin : ∀ p, Nat.Prime p → p ∣ n → d ≤ p)
    (hexit : size ≤ d ∨ ¬ d * d ≤ n) :
    1 < n → (Nat.Prime n ∨ (size ≤ n.minFac ∧ size * size ≤ n)) := by
  intro h1
  by_cases hp : Nat.Prime n
  · exact Or.inl hp
  · have hpf := Nat.minFac_prime (show n ≠ 1 by omega)
    have hdvd := Nat.minFac_dvd n
    have hge : d ≤ n.minFac := hmin _ hpf hdvd
    have hsq : n.minFac * n.minFac ≤ n := by
      have := Nat.minFac_sq_le_self (by omega) hp
      rwa [pow_two] at this
    rcases hexit with hge2 | hnd
    · right
      refine ⟨by omega, ?_⟩
      calc size * size ≤ n.minFac * n.minFac := Nat.mul_le_mul (by omega) (by omega)
        _ ≤ n := hsq
    · exfalso
      have : d * d ≤ n.minFac * n.minFac := Nat.mul_le_mul hge hge
      omega

/-- Invariant of the odd-divisor loop of `DivisorCount`: the accumulated
product times the divisor count of the cofactor is the divisor count of the
incoming value. -/
lemma dcOdd_eq :
    ∀ (fuel size n d : Nat),
      size ≤ d + 2 * fuel →
      n % 2 = 1 → 1 ≤ n → d % 2 = 1 → 3 ≤ d →
      (∀ p, Nat.Prime p → p ∣ n → d ≤ p) →
      ∃ m r, dcOdd fuel (New size) n d = (m, r) ∧
        r ∣ n ∧ r % 2 = 1 ∧ 1 ≤ r ∧
        m * r.divisors.card = n.divisors.card ∧
        (∀ p, Nat.Prime p → p ∣ r → d ≤ p) ∧
        (1 < r → (Nat.Prime r ∨ (size ≤ r.minFac ∧ size * size ≤ r))) := by
  intro fuel
  induction fuel with
  | zero =>
    intro size n d hfuel hodd hn hd hd3 hmin
    exact ⟨1, n, rfl, dvd_refl n, hodd, hn, Nat.one_mul _, hmin,
      survivor_clause hn hmin (Or.inl (by omega))⟩
  | succ fuel ih =>
    intro size n d hfuel hodd hn hd hd3 hmin
    by_cases hguard : d < size ∧ d * d ≤ n
    · by_cases hp : Prime (New size) d = true
      · have hdp : Nat.Prime d :=
          (Prime_eq (le_trans (Nat.le_of_lt hguard.1) (le_mul_self size))).1 hp
        by_cases hdiv : 1 < n ∧ n % d = 0
        · -- strip the power of `d`, then continue at `d + 2`
          obtain ⟨hprod1, hstop1, hr1⟩ := countOut_eq n n d (by omega) (le_refl n) (by omega)
          set k := (countOut n n d).1 with hkdef
          set n1 := (countOut n n d).2 with hn1def
          have hn1dvd : n1 ∣ n := ⟨d ^ k, by rw [hprod1]; ring⟩
          have hn1odd : n1 % 2 = 1 := odd_of_dvd hn1dvd hodd
          have hmin1 : ∀ p, Nat.Prime p → p ∣ n1 → d + 2 ≤ p := by
            intro p pp pd
            have hpn : p ∣ n := pd.trans hn1dvd
            have h1 := hmin p pp hpn
            have hpodd : p % 2 = 1 := odd_of_dvd hpn hodd
            have hpd : p ≠ d := by
              rintro rfl
              rcases hstop1 with h | h
              · rw [h] at pd
                exact pp.one_lt.ne' (Nat.dvd_one.1 pd)
              · exact h pd
            omega
          obtain ⟨m', r, heq, hrdvd, hrodd, hr', htau, hrmin, hfin⟩ :=
            ih size n1 (d + 2) (by omega) hn1odd hr1 (by omega) (by omega) hmin1
          have hco : Nat.Coprime (d ^ k) n1 := by
            rcases hstop1 with h | h
            · rw [h]
              exact Nat.coprime_one_right _
            · exact Nat.Coprime.pow_left k ((Nat.Prime.coprime_iff_not_dvd hdp).2 h)
          have htau_n : n.divisors.card = (k + 1) * n1.divisors.card := by
            calc n.divisors.card = ((d ^ k) * n1).divisors.card := by rw [← hprod1]
              _ = ((d ^ k).divisors).card * n1.divisors.card :=
                  Nat.Coprime.card_divisors_mul hco
              _ = (k + 1) * n1.divisors.card := by rw [card_divisors_prime_pow hdp]
          have hunfold : dcOdd (fuel + 1) (New size) n d = ((k + 1) * m', r) := by
            rw [dcOdd, New_size, if_pos hguard, if_pos hp, if_pos hdiv]
            show (((countOut n n d).1 + 1) * (dcOdd fuel (New size) n1 (d + 2)).1,
              (dcOdd fuel (New size) n1 (d + 2)).2) = _
            rw [heq]
          refine ⟨_, _, hunfold, hrdvd.trans hn1dvd, hrodd, hr', ?_, ?_, hfin⟩
          · calc (k + 1) * m' * r.divisors.card
                = (k + 1) * (m' * r.divisors.card) := by ring
              _ = (k + 1) * n1.divisors.card := by rw [htau]
              _ = n.divisors.card := htau_n.symm
          · intro p pp pd
            have := hrmin p pp pd
            omega
        · -- `d` is prime but does not divide `n`: skip
          have hmin1 : ∀ p, Nat.Prime p → p ∣ n → d + 2 ≤ p := by
            intro p pp pd
            have h1 := hmin p pp pd
            have hpodd : p % 2 = 1 := odd_of_dvd pd hodd
            have hpd : p ≠ d := by
              rintro rfl
              rcases Nat.lt_or_ge 1 n with hn1 | hn1
              · exact hdiv ⟨hn1, Nat.mod_eq_zero_of_dvd pd⟩
              · have : n = 1 := by omega
                rw [this] at pd
                exact pp.one_lt.ne' (Nat.dvd_one.1 pd)
            omega
          obtain ⟨m', r, heq, hrdvd, hrodd, hr', htau, hrmin, hfin⟩ :=
            ih size n (d + 2) (by omega) hodd hn (by omega) (by omega) hmin1
          have hunfold : dcOdd (fuel + 1) (New size) n d = (m', r) := by
            rw [dcOdd, New_size, if_pos hguard, if_pos hp, if_neg hdiv, heq]
          exact ⟨_, _, hunfold, hrdvd, hrodd, hr', htau,
            fun p pp pd => by have := hrmin p pp pd; omega, hfin⟩
      · -- `d` is composite: skip
        have hmin1 : ∀ p, Nat.Prime p → p ∣ n → d + 2 ≤ p := by
          intro p pp pd
          have h1 := hmin p pp pd
          have hpodd : p % 2 = 1 := odd_of_dvd pd hodd
          have hpd : p ≠ d := by
            rintro rfl
            exact (fun h => hp ((Prime_eq
              (le_trans (Nat.le_of_lt hguard.1) (le_mul_self size))).2 h)) pp
          omega
        obtain ⟨m', r, heq, hrdvd, hrodd, hr', htau, hrmin, hfin⟩ :=
          ih size n (d + 2) (by omega) hodd hn (by omega) (by omega) hmin1
        have hunfold : dcOdd (fuel + 1) (New size) n d = (m', r) := by
          rw [dcOdd, New_size, if_pos hguard, if_neg hp, heq]
        exact ⟨_, _, hunfold, hrdvd, hrodd, hr', htau,
          fun p pp pd => by have := hrmin p pp pd; omega, hfin⟩
    · -- loop exit
      have hunfold : dcOdd (fuel + 1) (New size) n d = (1, n) := by
        rw [dcOdd, New_size, if_neg hguard]
      refine ⟨1, n, hunfold, dvd_refl n, hodd, hn, Nat.one_mul _, hmin, ?_⟩
      refine survivor_clause hn hmin ?_
      rcases Nat.lt_or_ge d size with hlt | hge
      · exact Or.inr fun h => hguard ⟨hlt, h⟩
      · exact Or.inl hge

lemma divisorsUpTo_eq (n : Nat) (hn : 1 ≤ n) : divisorsUpTo n = n.divisors.card := by
  rw [divisorsUpTo]
  congr 1
  ext d
  rw [Finset.mem_filter, Finset.mem_Icc, Nat.mem_divisors]
  constructor
  · rintro ⟨⟨hd1, hd2⟩, h3⟩
    exact ⟨Nat.dvd_of_mod_eq_zero h3, by omega⟩
  · rintro ⟨hd1, hd2⟩
    have hd0 : 0 < d := by
      rcases Nat.eq_zero_or_pos d with rfl | h
      · have := Nat.eq_zero_of_zero_dvd hd1
        omega
      · exact h
    exact ⟨⟨hd0, Nat.le_of_dvd (by omega) hd1⟩, Nat.mod_eq_zero_of_dvd hd1⟩

/-- `DivisorCount` computes the number-of-divisors function on its documented
domain, except at the boundary case excluded for `Factor`. -/
lemma DivisorCount_eq (size n : Nat) (h1 : 1 ≤ n) (hn : n ≤ size * size)
    (hexc : ¬(n = size * size ∧ Nat.Prime size)) :
    DivisorCount (New size) (n : Int) = (divisorsUpTo n : Int) := by
  rw [divisorsUpTo_eq n h1]
  rcases Nat.lt_or_ge n 2 with h2 | h2
  · have hone : n = 1 := by omega
    subst hone
    simp only [DivisorCount, New_size]
    rw [if_neg (by exact_mod_cast Nat.not_lt.2 hn), if_pos (by norm_num),
      card_divisors_one]
    norm_num
  · simp only [DivisorCount, New_size]
    rw [if_neg (by exact_mod_cast Nat.not_lt.2 hn),
      if_neg (by exact_mod_cast (by omega : ¬ n = 1)),
      if_neg (by exact_mod_cast (by omega : ¬ n < 1))]
    by_cases htwo : 1 < (n : Int).toNat ∧ (n : Int).toNat % 2 = 0
    · rw [if_pos htwo]
      have htwo' : 1 < n ∧ n % 2 = 0 := htwo
      obtain ⟨hprod2, hodd2, hpos2⟩ :=
        countTwos_eq ((n : Int)).toNat ((n : Int)).toNat (le_refl _) (by simpa using h1)
      set a := (countTwos ((n : Int)).toNat ((n : Int)).toNat).1 with hadef
      set n1 := (countTwos ((n : Int)).toNat ((n : Int)).toNat).2 with hn1def
      have hNval : ((n : Int)).toNat = n := by simp
      rw [hNval] at hprod2
      have hmin1 : ∀ p, Nat.Prime p → p ∣ n1 → 3 ≤ p := by
        intro p pp pd
        have hpodd : p % 2 = 1 := odd_of_dvd pd hodd2
        have := pp.two_le
        omega
      obtain ⟨m', r, heq, hrdvd, hrodd, hr', htau, hrmin, hfin⟩ :=
        dcOdd_eq (size + 1) size n1 3 (by omega) hodd2 hpos2 (by omega) (by omega) hmin1
      have hco : Nat.Coprime (2 ^ a) n1 := by
        refine Nat.Coprime.pow_left a ?_
        refine (Nat.Prime.coprime_iff_not_dvd Nat.prime_two).2 ?_
        intro hdd
        have := Nat.mod_eq_zero_of_dvd hdd
        omega
      have htau_n : n.divisors.card = (a + 1) * n1.divisors.card := by
        calc n.divisors.card = ((2 ^ a) * n1).divisors.card := by rw [← hprod2]
          _ = ((2 ^ a).divisors).card * n1.divisors.card :=
              Nat.Coprime.card_divisors_mul hco
          _ = (a + 1) * n1.divisors.card := by rw [card_divisors_prime_pow Nat.prime_two]
      have hn1dvdn : n1 ∣ n := ⟨2 ^ a, by rw [hprod2]; ring⟩
      show (((a + 1) * (dcOdd (size + 1) (New size) n1 3).1 *
        if 1 < (dcOdd (size + 1) (New size) n1 3).2 then 2 else 1 : Nat) : Int) = _
      rw [heq]
      show (((a + 1) * m' * if 1 < r then 2 else 1 : Nat) : Int) = _
      rcases Nat.lt_or_ge 1 r with hrgt | hrle
      · have hrp : Nat.Prime r :=
          survivor_prime h2 hn hexc (hrdvd.trans hn1dvdn) hrgt (hfin hrgt)
        rw [if_pos hrgt]
        have : (a + 1) * m' * 2 = n.divisors.card := by
          have h2r : r.divisors.card = 2 := card_divisors_prime hrp
          calc (a + 1) * m' * 2 = (a + 1) * (m' * 2) := by ring
            _ = (a + 1) * (m' * r.divisors.card) := by rw [h2r]
            _ = (a + 1) * n1.divisors.card := by rw [htau]
            _ = n.divisors.card := htau_n.symm
        exact_mod_cast congrArg (Nat.cast : Nat → Int) this
      · have hre : r = 1 := by omega
        rw [if_neg (by omega)]
        have : (a + 1) * m' * 1 = n.divisors.card := by
          calc (a + 1) * m' * 1 = (a + 1) * (m' * 1) := by ring
            _ = (a + 1) * (m' * r.divisors.card) := by
                rw [hre, card_divisors_one]
            _ = (a + 1) * n1.divisors.card := by rw [htau]
            _ = n.divisors.card := htau_n.symm
        exact_mod_cast congrArg (Nat.cast : Nat → Int) this
    · rw [if_neg htwo]
      have hNval : ((n : Int)).toNat = n := by simp
      rw [hNval] at htwo
      have hodd2 : n % 2 = 1 := by omega
      have hmin1 : ∀ p, Nat.Prime p → p ∣ n → 3 ≤ p := by
        intro p pp pd
        have hpodd : p % 2 = 1 := odd_of_dvd pd hodd2
        have := pp.two_le
        omega
      obtain ⟨m', r, heq, hrdvd, hrodd, hr', htau, hrmin, hfin⟩ :=
        dcOdd_eq (size + 1) size n 3 (by omega) hodd2 (by omega) (by omega) (by omega)
          hmin1
      show ((1 * (dcOdd (size + 1) (New size) ((n : Int)).toNat 3).1 *
        if 1 < (dcOdd (size + 1) (New size) ((n : Int)).toNat 3).2 then 2 else 1 :
          Nat) : Int) = _
      rw [hNval, heq]
      show ((1 * m' * if 1 < r then 2 else 1 : Nat) : Int) = _
      rcases Nat.lt_or_ge 1 r with hrgt | hrle
      · have hrp : Nat.Prime r := survivor_prime h2 hn hexc hrdvd hrgt (hfin hrgt)
        rw [if_pos hrgt]
        have : 1 * m' * 2 = n.divisors.card := by
          have h2r : r.divisors.card = 2 := card_divisors_prime hrp
          calc 1 * m' * 2 = m' * r.divisors.card := by rw [h2r]; ring
            _ = n.divisors.card := htau
        exact_mod_cast congrArg (Nat.cast : Nat → Int) this
      · have hre : r = 1 := by omega
        rw [if_neg (by omega)]
        have : 1 * m' * 1 = n.divisors.card := by
          calc 1 * m' * 1 = m' * r.divisors.card := by rw [hre, card_divisors_one]; ring
            _ = n.divisors.card := htau
        exact_mod_cast congrArg (Nat.cast : Nat → Int) this

/-! ### SquareFree -/

lemma noAdjDup_iff_chain :
    ∀ l : List Int, (noAdjDup l = true ↔ List.Chain' (· ≠ ·) l) := by
  intro l
  induction l with
  | nil => simp [noAdjDup]
  | cons x rest ih =>
    cases rest with
    | nil => simp [noAdjDup]
    | cons y rest' =>
      rw [noAdjDup]
      by_cases hxy : x = y
      · rw [if_pos hxy]
        constructor
        · intro h
          exact absurd h (by simp)
        · intro h
          exact absurd hxy (List.chain'_cons.1 h).1
      · rw [if_neg hxy, ih, List.chain'_cons]
        tauto

lemma chain_ne_map_iff (l : List Nat) :
    (List.Chain' (· ≠ ·) (l.map Int.ofNat) ↔ List.Chain' (· ≠ ·) l) := by
  rw [List.chain'_map]
  constructor
  · intro h
    exact h.imp fun a b hab heq => hab (congrArg Int.ofNat heq)
  · intro h
    exact h.imp fun a b hab heq => hab (Int.ofNat.inj heq)

lemma nodup_iff_chain_of_sorted :
    ∀ {l : List Nat}, List.Sorted (· ≤ ·) l →
      (List.Chain' (· ≠ ·) l ↔ l.Nodup) := by
  intro l
  induction l with
  | nil => simp
  | cons x rest ih =>
    intro hs
    have hx : ∀ b ∈ rest, x ≤ b := (List.sorted_cons.1 hs).1
    have hrest : List.Sorted (· ≤ ·) rest := (List.sorted_cons.1 hs).2
    rw [List.nodup_cons, List.chain'_cons', ih hrest]
    constructor
    · rintro ⟨hhead, hnd⟩
      refine ⟨?_, hnd⟩
      intro hmem
      cases rest with
      | nil => exact absurd hmem (List.not_mem_nil x)
      | cons y rest' =>
        have hxy : x ≠ y := hhead y rfl
        rcases List.mem_cons.1 hmem with heq | hmem'
        · exact hxy heq
        · have hyb : ∀ b ∈ rest', y ≤ b := (List.sorted_cons.1 hrest).1
          have hyx : y ≤ x := hyb x hmem'
          have hxyle : x ≤ y := hx y (List.mem_cons_self y rest')
          exact hxy (le_antisymm hxyle hyx)
    · rintro ⟨hnotmem, hnd⟩
      refine ⟨?_, hnd⟩
      intro b hb heq
      apply hnotmem
      rw [heq]
      exact List.mem_of_mem_head? hb

/-- `SquareFree` decides squarefreeness (no repeated prime factor) on its
domain, minus the excluded boundary case. -/
lemma SquareFree_eq (size n : Nat) (h2 : 2 ≤ n) (hn : n ≤ size * size)
    (hexc : ¬(n = size * size ∧ Nat.Prime size)) :
    (SquareFree (New size) (n : Int) = true ↔
      ∀ p, Nat.Prime p → ¬ (p * p ∣ n)) := by
  rw [SquareFree, New_size, if_neg (by exact_mod_cast Nat.not_lt.2 hn),
    Factor_eq size n h2 hn hexc, noAdjDup_iff_chain, chain_ne_map_iff,
    nodup_iff_chain_of_sorted (Nat.primeFactorsList_sorted n),
    ← Nat.squarefree_iff_nodup_primeFactorsList (by omega : n ≠ 0)]
  exact Nat.squarefree_iff_prime_squarefree

/-! ### Bounds-checked runs succeed -/

lemma shift_index_eq (j : Nat) : j >>> (1 + wordBitsLog2) = j / 16 := by
  have h4 : (1 : Nat) + wordBitsLog2 = 4 := rfl
  rw [h4, Nat.shiftRight_eq_div_pow]

lemma setBitChecked_some {s : Sieve} {j : Nat} (hlen : tableLen s.size ≤ s.table.length)
    (hj : j ≤ s.size) : setBitChecked s j = some (s.setBit j) := by
  rw [setBitChecked, if_pos]
  rw [shift_index_eq]
  exact lt_of_lt_of_le (index_lt_tableLen hj) hlen

lemma bitChecked_some {s : Sieve} {i : Nat} (hlen : tableLen s.size ≤ s.table.length)
    (hi : i ≤ s.size) : bitChecked s i = some (s.bit i) := by
  rw [bitChecked, if_pos]
  rw [shift_index_eq]
  exact lt_of_lt_of_le (index_lt_tableLen hi) hlen

lemma strikeChecked_eq :
    ∀ (fuel i : Nat) (s : Sieve) (j : Nat), tableLen s.size ≤ s.table.length →
      strikeChecked fuel i s j = some (strike fuel i s j) := by
  intro fuel
  induction fuel with
  | zero => intro i s j hlen; rfl
  | succ fuel ih =>
    intro i s j hlen
    rw [strikeChecked, strike]
    by_cases hj : j ≤ s.size
    · rw [if_pos hj, if_pos hj, setBitChecked_some hlen hj]
      exact ih i (s.setBit j) (j + (i + i)) (by simpa using hlen)
    · rw [if_neg hj, if_neg hj]

lemma sieveLoopChecked_eq :
    ∀ (fuel : Nat) (s : Sieve) (i : Nat), tableLen s.size ≤ s.table.length →
      sieveLoopChecked fuel s i = some (sieveLoop fuel s i) := by
  intro fuel
  induction fuel with
  | zero => intro s i hlen; rfl
  | succ fuel ih =>
    intro s i hlen
    rw [sieveLoopChecked, sieveLoop]
    by_cases hc : i * i ≤ s.size
    · rw [if_pos hc, if_pos hc,
        bitChecked_some hlen (le_trans (le_mul_self i) hc)]
      by_cases hb : s.bit i = 0
      · rw [if_pos hb]
        show (match (if s.bit i = 0 then strikeChecked (s.size + 1) i s (3 * i)
              else some s) with
            | none => none
            | some t => sieveLoopChecked fuel t (i + 2)) =
          some (sieveLoop fuel (strike (s.size + 1) i s (3 * i)) (i + 2))
        rw [if_pos hb, strikeChecked_eq (s.size + 1) i s (3 * i) hlen]
        exact ih (strike (s.size + 1) i s (3 * i)) (i + 2) (by simpa using hlen)
      · rw [if_neg hb]
        show (match (if s.bit i = 0 then strikeChecked (s.size + 1) i s (3 * i)
              else some s) with
            | none => none
            | some t => sieveLoopChecked fuel t (i + 2)) =
          some (sieveLoop fuel s (i + 2))
        rw [if_neg hb]
        exact ih s (i + 2) hlen
    · rw [if_neg hc, if_neg hc]

/-- Every table write and read of the constructor is in bounds: the checked
construction never panics and agrees with the unchecked one. -/
lemma NewChecked_eq (size : Nat) : NewChecked size = some (New size) := by
  rw [NewChecked, New]
  exact sieveLoopChecked_eq (size + 1) _ 3 (by simp [tableLen])

lemma primeTrialChecked_eq :
    ∀ (fuel : Nat) (s : Sieve) (n root d : Nat),
      tableLen s.size ≤ s.table.length → root ≤ s.size →
      primeTrialChecked fuel s n root d = some (primeTrial fuel s n root d) := by
  intro fuel
  induction fuel with
  | zero => intro s n root d h1 h2; rfl
  | succ fuel ih =>
    intro s n root d h1 h2
    rw [primeTrialChecked, primeTrial]
    by_cases hd : d ≤ root
    · rw [if_pos hd, if_pos hd, bitChecked_some h1 (le_trans hd h2)]
      show (if s.bit d = 0 ∧ n % d = 0 then some false
          else primeTrialChecked fuel s n root (d + 2)) =
        some (if s.bit d = 0 ∧ n % d = 0 then false else primeTrial fuel s n root (d + 2))
      by_cases hh : s.bit d = 0 ∧ n % d = 0
      · rw [if_pos hh, if_pos hh]
      · rw [if_neg hh, if_neg hh]
        exact ih s n root (d + 2) h1 h2
    · rw [if_neg hd, if_neg hd]

/-- Every table read of `Prime` is in bounds, for every argument. -/
lemma PrimeChecked_eq (size n : Nat) :
    PrimeChecked (New size) n = some (Prime (New size) n) := by
  have hlen : tableLen (New size).size ≤ (New size).table.length := by
    rw [New_size, New_length]
  rw [PrimeChecked, Prime, New_size]
  by_cases h2 : n < 2
  · rw [if_pos h2, if_pos h2]
  · rw [if_neg h2, if_neg h2]
    by_cases he : n = 2
    · rw [if_pos he, if_pos he]
    · rw [if_neg he, if_neg he]
      by_cases hev : n &&& 1 = 0
      · rw [if_pos hev, if_pos hev]
      · rw [if_neg hev, if_neg hev]
        by_cases hsz : n ≤ size
        · rw [if_pos hsz, if_pos hsz]
          have hcond : 2 < n ∧ n ≤ size ∧ n &&& 1 = 1 := by
            rw [Nat.and_one_is_mod] at hev ⊢
            exact ⟨by omega, hsz, by omega⟩
          rw [if_pos hcond,
            bitChecked_some hlen (by rw [New_size]; exact hsz)]
        · rw [if_neg hsz, if_neg hsz]
          by_cases hsq : n ≤ size * size
          · rw [if_pos hsq, if_pos hsq]
            show (if (rootLoop n n 1) * (rootLoop n n 1) = n then some false
                else primeTrialChecked ((rootLoop n n 1) + 1) (New size) n
                  (rootLoop n n 1) 3) =
              some (if (rootLoop n n 1) * (rootLoop n n 1) = n then false
                else primeTrial ((rootLoop n n 1) + 1) (New size) n (rootLoop n n 1) 3)
            by_cases hroot : (rootLoop n n 1) * (rootLoop n n 1) = n
            · rw [if_pos hroot, if_pos hroot]
            · rw [if_neg hroot, if_neg hroot]
              refine primeTrialChecked_eq _ (New size) n _ 3 hlen ?_
              rw [rootLoop_eq n (by omega), New_size]
              have hs : Nat.sqrt n ≤ Nat.sqrt (size * size) := Nat.sqrt_le_sqrt hsq
              rwa [Nat.sqrt_eq] at hs
          · rw [if_neg hsq, if_neg hsq]

/-! ### Out-of-range sentinels and degenerate arguments -/

lemma Prime_out_of_range (size n : Nat) (hn : size * size < n) (hne2 : n ≠ 2) :
    Prime (New size) n = false := by
  rw [Prime, New_size]
  by_cases h2 : n < 2
  · rw [if_pos h2]
  · rw [if_neg h2, if_neg hne2]
    by_cases hev : n &&& 1 = 0
    · rw [if_pos hev]
    · rw [if_neg hev]
      have hgt : ¬ n ≤ size := by
        have := le_mul_self size
        omega
      rw [if_neg hgt, if_neg (by omega)]

lemma Factor_out_of_range (s : Sieve) (n : Int)
    (hn : (s.size : Int) * s.size < n) : Factor s n = [] := by
  rw [Factor, if_pos hn]

lemma FactorUnique_out_of_range (s : Sieve) (n : Int)
    (hn : (s.size : Int) * s.size < n) : FactorUnique s n = [] := by
  rw [FactorUnique, if_pos hn]

lemma DivisorCount_out_of_range (s : Sieve) (n : Int)
    (hn : (s.size : Int) * s.size < n) : DivisorCount s n = 0 := by
  rw [DivisorCount, if_pos hn]

lemma SquareFree_out_of_range (s : Sieve) (n : Int)
    (hn : (s.size : Int) * s.size < n) : SquareFree s n = false := by
  rw [SquareFree, if_pos hn]

lemma Factor_le_three (s : Sieve) (n : Int) (h3 : n ≤ 3)
    (hn : n ≤ (s.size : Int) * s.size) : Factor s n = [n] := by
  rw [Factor, if_neg (not_lt.2 hn), if_pos h3]

lemma FactorUnique_le_three (s : Sieve) (n : Int) (h3 : n ≤ 3)
    (hn : n ≤ (s.size : Int) * s.size) : FactorUnique s n = [⟨n, 1⟩] := by
  rw [FactorUnique, if_neg (not_lt.2 hn), if_pos h3]

/-- The main branch of `Factor` always returns a list of naturals whose
product is the argument (no exclusion hypothesis needed). -/
lemma Factor_main_shape (size n : Nat) (h4 : 4 ≤ n) (hn : n ≤ size * size) :
    ∃ L : List Nat, Factor (New size) (n : Int) = L.map Int.ofNat ∧ L.prod = n := by
  rw [Factor, New_size, if_neg (by exact_mod_cast Nat.not_lt.2 hn),
    if_neg (by exact_mod_cast (by omega : ¬ n ≤ 3))]
  obtain ⟨a, hl2, hprod2, hodd2, hpos2⟩ := factorTwos_eq n n (le_refl n) (by omega)
  set n1 := (factorTwos n n).2 with hn1def
  have hmin1 : ∀ p, Nat.Prime p → p ∣ n1 → 3 ≤ p := by
    intro p pp pd
    have hpodd : p % 2 = 1 := odd_of_dvd pd hodd2
    have := pp.two_le
    omega
  obtain ⟨l, r, heq, hprodr, hsort, hel, hrodd, hr', hrmin, hfin⟩ :=
    factorOdd_eq (size + 1) size n1 3 (by omega) hodd2 hpos2 (by omega) (by omega) hmin1
  refine ⟨(List.replicate a 2 ++ l) ++ (if 1 < r then [r] else []), ?_, ?_⟩
  · show (((factorTwos n n).1 ++ (factorOdd (size + 1) (New size) n1 3).1) ++
        (if 1 < (factorOdd (size + 1) (New size) n1 3).2 then
          [(factorOdd (size + 1) (New size) n1 3).2] else [])).map Int.ofNat = _
    rw [hl2, heq]
  · rw [List.prod_append, List.prod_append, List.prod_replicate]
    have hnval : n = 2 ^ a * (l.prod * r) := by rw [hprod2, hprodr]
    rcases Nat.lt_or_ge 1 r with hgt | hle
    · rw [if_pos hgt, List.prod_singleton, hnval]
      ring
    · rw [if_neg (by omega), List.prod_nil, hnval, show r = 1 by omega]
      ring

/-- `n = size²` is still accepted by the factoring domain: `Factor` does not
return the out-of-range sentinel (the empty list) there. -/
lemma Factor_sq_ne_nil (size : Nat) :
    Factor (New size) ((size * size : Nat) : Int) ≠ [] := by
  rcases Nat.lt_or_ge (size * size) 4 with hlt | hge
  · have h3 : ((size * size : Nat) : Int) ≤ 3 := by
      exact_mod_cast (by omega : size * size ≤ 3)
    rw [Factor_le_three (New size) _ h3 (by rw [New_size]; push_cast; exact le_refl _)]
    simp
  · obtain ⟨L, hmap, hprod⟩ := Factor_main_shape size (size * size) hge (le_refl _)
    rw [hmap]
    intro hnil
    rw [List.map_eq_nil_iff] at hnil
    rw [hnil] at hprod
    simp at hprod
    omega

end sieve

/-! ## The claims -/

/-- Claim C1: for every sieve built by `New size` and every `n` with
`0 ≤ n ≤ size*size`, `Prime n` returns `true` iff `n` is prime (negative Go
arguments land in the `n < 2` case exactly as `0` does, so the `Nat` argument
covers the full claimed range). -/
theorem claim_C1 (size n : Nat) (hn : n ≤ size * size) :
    sieve.Prime (sieve.New size) n = true ↔ Nat.Prime n :=
  sieve.Prime_eq hn

theorem claim_C1_witness :
    ((7 : Nat) ≤ 5 * 5) ∧ (sieve.Prime (sieve.New 5) 7 = true ↔ Nat.Prime 7) :=
  ⟨by decide, claim_C1 5 7 (by decide)⟩

/-- Claim C2 (corrected): for `2 ≤ n ≤ size*size`, `Factor n` returns a
non-decreasing list of primes whose product is `n` — except at the single
boundary point `n = size*size` with `size` itself prime, where the returned
cofactor `size*size` is not prime (see the counterexample). -/
theorem claim_C2 (size n : Nat) (h2 : 2 ≤ n) (hn : n ≤ size * size)
    (hexc : ¬(n = size * size ∧ Nat.Prime size)) :
    (sieve.Factor (sieve.New size) (n : Int)).prod = (n : Int) ∧
    (∀ q ∈ sieve.Factor (sieve.New size) (n : Int), Prime q) ∧
    List.Sorted (· ≤ ·) (sieve.Factor (sieve.New size) (n : Int)) := by
  rw [sieve.Factor_eq size n h2 hn hexc]
  have hcast : (Int.ofNat : Nat → Int) = (Nat.cast : Nat → Int) := rfl
  rw [hcast]
  refine ⟨?_, ?_, ?_⟩
  · rw [← Nat.cast_list_prod, Nat.prod_primeFactorsList (by omega)]
  · intro q hq
    rw [List.mem_map] at hq
    obtain ⟨p, hp, hpq⟩ := hq
    have hprime := Nat.prime_of_mem_primeFactorsList hp
    rw [← hpq, Int.prime_iff_natAbs_prime]
    simpa using hprime
  · exact List.Pairwise.map _ (fun a b hab => by exact_mod_cast hab)
      (Nat.primeFactorsList_sorted n)

theorem claim_C2_witness :
    ((2 : Nat) ≤ 12 ∧ (12 : Nat) ≤ 4 * 4 ∧ ¬((12 : Nat) = 4 * 4 ∧ Nat.Prime 4)) ∧
    ((sieve.Factor (sieve.New 4) ((12 : Nat) : Int)).prod = ((12 : Nat) : Int) ∧
     (∀ q ∈ sieve.Factor (sieve.New 4) ((12 : Nat) : Int), Prime q) ∧
     List.Sorted (· ≤ ·) (sieve.Factor (sieve.New 4) ((12 : Nat) : Int))) :=
  ⟨by decide, claim_C2 4 12 (by decide) (by decide) (by decide)⟩

theorem claim_C2_counterexample :
    ((2 : Nat) ≤ 9 ∧ (9 : Nat) ≤ 3 * 3) ∧
    sieve.Factor (sieve.New 3) ((9 : Nat) : Int) = [9] ∧ ¬ Prime (9 : Int) := by
  refine ⟨by decide, by decide, ?_⟩
  rw [Int.prime_iff_natAbs_prime]
  decide

set_option maxRecDepth 40000 in
set_option maxHeartbeats 2000000 in
/-- Claim C3: `Count` of `New size` is the prime-counting function π(size);
it is 0 below 2, a second call (on the memoized sieve returned by the first)
gives the same value, and the reference values π(10)=4, π(100)=25, π(1000)=168
hold. -/
theorem claim_C3 (size : Nat) :
    (sieve.Count (sieve.New size)).1 = sieve.primesUpTo size ∧
    (sieve.Count (sieve.New 0)).1 = 0 ∧
    (sieve.Count (sieve.New 1)).1 = 0 ∧
    (sieve.Count ((sieve.Count (sieve.New size)).2)).1 = (sieve.Count (sieve.New size)).1 ∧
    (sieve.Count (sieve.New 10)).1 = 4 ∧
    (sieve.Count (sieve.New 100)).1 = 25 ∧
    (sieve.Count (sieve.New 1000)).1 = 168 := by
  refine ⟨?_, by decide, by decide, sieve.Count_idem size, by decide, by decide, by decide⟩
  rw [sieve.Count_New]

/-- Claim C4: `FactorUnique` and `Factor` are consistent for every sieve and
every integer argument, including the out-of-range and degenerate cases:
expanding each pair multiplicities-wise reproduces `Factor` exactly. -/
theorem claim_C4 (s : sieve.Sieve) (n : Int) :
    sieve.expand (sieve.FactorUnique s n) = sieve.Factor s n :=
  sieve.FactorUnique_expand s n

/-- Claim C5 (corrected): for `1 ≤ n ≤ size*size`, `DivisorCount n` is the
number of divisors of `n` in `[1, n]` — except at the boundary point
`n = size*size` with `size` prime, where the last prime factor is counted
with multiplicity 1 instead of 2 (see the counterexample). -/
theorem claim_C5 (size n : Nat) (h1 : 1 ≤ n) (hn : n ≤ size * size)
    (hexc : ¬(n = size * size ∧ Nat.Prime size)) :
    sieve.DivisorCount (sieve.New size) (n : Int) = (sieve.divisorsUpTo n : Int) :=
  sieve.DivisorCount_eq size n h1 hn hexc

theorem claim_C5_witness :
    ((1 : Nat) ≤ 6 ∧ (6 : Nat) ≤ 3 * 3 ∧ ¬((6 : Nat) = 3 * 3 ∧ Nat.Prime 3)) ∧
    sieve.DivisorCount (sieve.New 3) ((6 : Nat) : Int) = (sieve.divisorsUpTo 6 : Int) ∧
    sieve.divisorsUpTo 6 = 4 :=
  ⟨by decide, claim_C5 3 6 (by decide) (by decide) (by decide), by decide⟩

theorem claim_C5_counterexample :
    ((1 : Nat) ≤ 9 ∧ (9 : Nat) ≤ 3 * 3) ∧
    sieve.DivisorCount (sieve.New 3) ((9 : Nat) : Int) = 2 ∧
    sieve.divisorsUpTo 9 = 3 := by decide

/-- Claim C6 (corrected): for `2 ≤ n ≤ size*size`, `SquareFree n` is `true`
iff no prime square divides `n` — except at the boundary point
`n = size*size` with `size` prime, where the repeated factor goes undetected
(see the counterexample). -/
theorem claim_C6 (size n : Nat) (h2 : 2 ≤ n) (hn : n ≤ size * size)
    (hexc : ¬(n = size * size ∧ Nat.Prime size)) :
    (sieve.SquareFree (sieve.New size) (n : Int) = true ↔
      ∀ p, Nat.Prime p → ¬ (p * p ∣ n)) :=
  sieve.SquareFree_eq size n h2 hn hexc

theorem claim_C6_witness :
    ((2 : Nat) ≤ 10 ∧ (10 : Nat) ≤ 4 * 4 ∧ ¬((10 : Nat) = 4 * 4 ∧ Nat.Prime 4)) ∧
    (sieve.SquareFree (sieve.New 4) ((10 : Nat) : Int) = true ↔
      ∀ p, Nat.Prime p → ¬ (p * p ∣ 10)) ∧
    sieve.SquareFree (sieve.New 4) ((10 : Nat) : Int) = true ∧
    sieve.SquareFree (sieve.New 4) ((4 : Nat) : Int) = false :=
  ⟨by decide, claim_C6 4 10 (by decide) (by decide) (by decide), by decide, by decide⟩

theorem claim_C6_counterexample :
    ((2 : Nat) ≤ 9 ∧ (9 : Nat) ≤ 3 * 3) ∧
    sieve.SquareFree (sieve.New 3) ((9 : Nat) : Int) = true ∧
    Nat.Prime 3 ∧ 3 * 3 ∣ 9 := by decide

/-- Claim C7: `NthPrime 1 = 2`; for `n ≥ 2`, if `[3, size]` holds at least
`n-1` odd primes then `NthPrime n` is the `n`-th prime (1-indexed, so
`Nat.nth Nat.Prime (n-1)` 0-indexed), else the sentinel 0. -/
theorem claim_C7 (size n : Nat) :
    (n = 1 → sieve.NthPrime (sieve.New size) n = 2) ∧
    (2 ≤ n → n - 1 ≤ sieve.oddPrimesIn size →
      sieve.NthPrime (sieve.New size) n = Nat.nth Nat.Prime (n - 1)) ∧
    (2 ≤ n → sieve.oddPrimesIn size < n - 1 →
      sieve.NthPrime (sieve.New size) n = 0) := by
  refine ⟨?_, fun h2 hle => sieve.NthPrime_found size n h2 hle,
    fun h2 hgt => sieve.NthPrime_notfound size n h2 hgt⟩
  intro h1
  rw [sieve.NthPrime, if_pos h1]

theorem claim_C7_witness :
    sieve.NthPrime (sieve.New 10) 4 = Nat.nth Nat.Prime 3 ∧
    Nat.nth Nat.Prime 3 = 7 ∧
    sieve.NthPrime (sieve.New 10) 1 = 2 ∧
    sieve.NthPrime (sieve.New 10) 6 = 0 := by
  have h7 : Nat.nth Nat.Prime 3 = 7 := by
    have hc : Nat.count Nat.Prime 7 = 3 := by decide
    have hn := Nat.nth_count (p := Nat.Prime) (by norm_num : Nat.Prime 7)
    rw [hc] at hn
    exact hn
  exact ⟨(claim_C7 10 4).2.1 (by decide) (by decide), h7,
    (claim_C7 10 1).1 rfl, (claim_C7 10 6).2.2 (by decide) (by decide)⟩

/-- Claim C8 (corrected): beyond `size*size` every operation returns its
sentinel (`Prime` false, `Factor`/`FactorUnique` empty, `DivisorCount` 0,
`SquareFree` false) — except that `Prime 2 = true` even when `2 > size*size`
(see the counterexample); and `n = size*size` is still accepted by the
factoring domain. -/
theorem claim_C8 (size n : Nat) (m : Int) (hn : size * size < n) (hne2 : n ≠ 2)
    (hm : (size : Int) * size < m) :
    sieve.Prime (sieve.New size) n = false ∧
    sieve.Factor (sieve.New size) m = [] ∧
    sieve.FactorUnique (sieve.New size) m = [] ∧
    sieve.DivisorCount (sieve.New size) m = 0 ∧
    sieve.SquareFree (sieve.New size) m = false ∧
    sieve.Factor (sieve.New size) ((size * size : Nat) : Int) ≠ [] := by
  refine ⟨sieve.Prime_out_of_range size n hn hne2, ?_, ?_, ?_, ?_,
    sieve.Factor_sq_ne_nil size⟩
  · exact sieve.Factor_out_of_range (sieve.New size) m (by rw [sieve.New_size]; exact hm)
  · exact sieve.FactorUnique_out_of_range (sieve.New size) m
      (by rw [sieve.New_size]; exact hm)
  · exact sieve.DivisorCount_out_of_range (sieve.New size) m
      (by rw [sieve.New_size]; exact hm)
  · exact sieve.SquareFree_out_of_range (sieve.New size) m
      (by rw [sieve.New_size]; exact hm)

theorem claim_C8_witness :
    (3 * 3 < 11 ∧ (11 : Nat) ≠ 2 ∧ (3 : Int) * 3 < 11) ∧
    (sieve.Prime (sieve.New 3) 11 = false ∧
     sieve.Factor (sieve.New 3) 11 = [] ∧
     sieve.FactorUnique (sieve.New 3) 11 = [] ∧
     sieve.DivisorCount (sieve.New 3) 11 = 0 ∧
     sieve.SquareFree (sieve.New 3) 11 = false ∧
     sieve.Factor (sieve.New 3) ((3 * 3 : Nat) : Int) ≠ []) :=
  ⟨by decide, claim_C8 3 11 11 (by decide) (by decide) (by decide)⟩

theorem claim_C8_counterexample :
    1 * 1 < 2 ∧ sieve.Prime (sieve.New 1) 2 = true := by decide

/-- Claim C9 (corrected): for `size ≥ 0` the table has `1 + (size+7)/8`
words, every table access of construction and of `Prime` on any argument
stays in bounds (the checked embeddings return `some` of the unchecked run);
but a negative size does not always make the allocation length negative:
`allocLen (-1) = 1 ≥ 0`, though e.g. `allocLen (-23) < 0`. -/
theorem claim_C9 (size n : Nat) :
    sieve.NewChecked size = some (sieve.New size) ∧
    sieve.PrimeChecked (sieve.New size) n = some (sieve.Prime (sieve.New size) n) ∧
    (sieve.New size).table.length = 1 + (size + 7) / 8 ∧
    sieve.allocLen (-23) < 0 ∧ (0 : Int) ≤ sieve.allocLen (-1) := by
  refine ⟨sieve.NewChecked_eq size, sieve.PrimeChecked_eq size n, ?_, by decide, by decide⟩
  rw [sieve.New_length, sieve.tableLen]
  show 1 + (size + 8 - 1) / 8 = 1 + (size + 7) / 8
  rw [show size + 8 - 1 = size + 7 from by omega]

theorem claim_C9_counterexample :
    sieve.allocLen (-1) = 1 ∧ (0 : Int) ≤ sieve.allocLen (-1) := by decide

/-- Claim C10: for any sieve and any integer `n ≤ 3` inside the range check
(including 0, 1 and all negatives), `Factor` returns `[n]` and
`FactorUnique` returns the single pair `{n, 1}` — not a factorization into
primes when `n < 2`. -/
theorem claim_C10 (s : sieve.Sieve) (n : Int) (h3 : n ≤ 3)
    (hn : n ≤ (s.size : Int) * s.size) :
    sieve.Factor s n = [n] ∧ sieve.FactorUnique s n = [⟨n, 1⟩] :=
  ⟨sieve.Factor_le_three s n h3 hn, sieve.FactorUnique_le_three s n h3 hn⟩

theorem claim_C10_witness :
    ((-5 : Int) ≤ 3 ∧ (-5 : Int) ≤ ((sieve.New 3).size : Int) * (sieve.New 3).size) ∧
    sieve.Factor (sieve.New 3) (-5) = [-5] ∧
    sieve.FactorUnique (sieve.New 3) (-5) = [⟨-5, 1⟩] ∧
    sieve.Factor (sieve.New 3) 0 = [0] := by
  have h1 := claim_C10 (sieve.New 3) (-5) (by decide) (by rw [sieve.New_size]; decide)
  have h2 := claim_C10 (sieve.New 3) 0 (by decide) (by rw [sieve.New_size]; decide)
  exact ⟨⟨by decide, by rw [sieve.New_size]; decide⟩, h1.1, h1.2, h2.1⟩
